import Mathlib

/-!
Verification development for the `mobilize` repository.

The Python modules under verification are shallowly embedded here:

* `src/source_registry.py` — `SourceRegistry` (tag registration, deduplication,
  FIFO eviction, and the `substitute` text pipeline).  Python strings are
  modelled as `List Char`; the three regular expressions used by `substitute`
  (`\[(SOURCE_\w+(?:\s*,\s*SOURCE_\w+)+)\]`, `(?<!\[)(SOURCE_\w+)(?!\])` and
  `\[SOURCE_\w+\]`) are modelled as deterministic left-to-right scanners,
  which is what these particular patterns reduce to under Python's
  leftmost-match / resume-after-match `re.sub` semantics (including the one
  place where backtracking is observable: shrinking `\w+` by one character
  when the `(?!\])` lookahead rejects the maximal word run).
  Python `\w` is modelled as ASCII alphanumerics plus underscore.
* `src/chat_history.py` — `ChatHistoryManager` turn splitting and compression.
* `src/ollama_transport.py` — `OllamaRetryTransport` request sanitization and
  the bounded retry loop.  The JSON body is modelled as an inductive `Json`
  value (ints instead of general JSON numbers; minimal string escaping), the
  HTTP exchange as a pure function from attempt number and request to
  response; the count of logged retry warnings is returned as a second
  component.
* The Call Budget Guard of spec §4.4 has no implementation under `src/`;
  it is modelled from the spec where used.

Scanners are written with an explicit fuel argument (initialised with the
length of the scanned list, which every lemma shows is sufficient) so that all
recursions are structural.
-/

/-- Python `\w` for the ASCII range: letters, digits and underscore. -/
def isWordChar (c : Char) : Bool := c.isAlphanum || c = '_'

/-- Python `str.strip()`: remove leading and trailing whitespace. -/
def pyStrip (l : List Char) : List Char :=
  ((l.dropWhile Char.isWhitespace).reverse.dropWhile Char.isWhitespace).reverse

/-- Boolean prefix test on character lists. -/
def isPre : List Char → List Char → Bool
  | [], _ => true
  | _ :: _, [] => false
  | a :: as, b :: bs => a = b && isPre as bs

/-- Python `pat in text`: `pat` occurs as a contiguous substring of `l`. -/
def containsSub (pat : List Char) : List Char → Bool
  | [] => pat.isEmpty
  | c :: cs => isPre pat (c :: cs) || containsSub pat cs

/-- Worker for `pyReplace`; only called with a nonempty pattern.  The fuel is
initialised with the length of the scanned list, which is always sufficient
because every step consumes at least one character. -/
def replaceAux (pat rep : List Char) : Nat → List Char → List Char
  | 0, l => l
  | _ + 1, [] => []
  | fuel + 1, c :: cs =>
    if isPre pat (c :: cs) then rep ++ replaceAux pat rep fuel (cs.drop (pat.length - 1))
    else c :: replaceAux pat rep fuel cs

/-- Python `str.replace`: replace all non-overlapping occurrences, left to
right.  An empty pattern inserts `rep` at every position, as in Python. -/
def pyReplace (pat rep l : List Char) : List Char :=
  match pat with
  | [] => rep ++ l.foldr (fun c acc => c :: (rep ++ acc)) []
  | _ :: _ => replaceAux pat rep l.length l

/-- The literal `SOURCE_` that all three tag regexes start from. -/
def srcLit : List Char := "SOURCE_".toList

/-- Parse `SOURCE_\w+` at the head of `l` with a maximal (greedy) word run.
Returns the matched characters and the remaining input. -/
def parseTagBody (l : List Char) : Option (List Char × List Char) :=
  if isPre srcLit l then
    let r := l.drop srcLit.length
    let w := r.takeWhile isWordChar
    if w.isEmpty then none
    else some (srcLit ++ w, r.dropWhile isWordChar)
  else none

/-- Parse one `\s*,\s*SOURCE_\w+` continuation unit of the compound-tag
regex. -/
def parseUnit (l : List Char) : Option (List Char × List Char) :=
  match l.dropWhile Char.isWhitespace with
  | [] => none
  | c :: l2 => if c = ',' then parseTagBody (l2.dropWhile Char.isWhitespace) else none

/-- Greedily parse as many continuation units as possible. -/
def parseUnitsAux : Nat → List Char → List (List Char) × List Char
  | 0, l => ([], l)
  | fuel + 1, l =>
    match parseUnit l with
    | some (t, rest) =>
      let p := parseUnitsAux fuel rest
      (t :: p.1, p.2)
    | none => ([], l)

/-- Match `\[(SOURCE_\w+(?:\s*,\s*SOURCE_\w+)+)\]` at the head of the input,
returning the list of `SOURCE_\w+` groups (what `re.findall` extracts in the
replacement callback) and the input after the match. -/
def matchCompound : List Char → Option (List (List Char) × List Char)
  | [] => none
  | c :: r =>
    if c = '[' then
      match parseTagBody r with
      | some (t1, r1) =>
        let p := parseUnitsAux r1.length r1
        if p.1.isEmpty then none
        else
          match p.2 with
          | [] => none
          | d :: r3 => if d = ']' then some (t1 :: p.1, r3) else none
      | none => none
    else none

/-- Replacement text of the compound-tag expansion: each tag re-bracketed,
joined by single spaces. -/
def joinTags (ts : List (List Char)) : List Char :=
  List.intercalate [' '] (ts.map (fun t => '[' :: (t ++ [']'])))

/-- Scanner for `SourceRegistry._expand_compound_tags`. -/
def expandCompoundAux : Nat → List Char → List Char
  | 0, l => l
  | _ + 1, [] => []
  | fuel + 1, c :: cs =>
    match matchCompound (c :: cs) with
    | some (ts, rest) => joinTags ts ++ expandCompoundAux fuel rest
    | none => c :: expandCompoundAux fuel cs

/-- `SourceRegistry._expand_compound_tags`: expand `[SOURCE_X, SOURCE_Y]` into
`[SOURCE_X] [SOURCE_Y]`. -/
def expand_compound_tags (l : List Char) : List Char := expandCompoundAux l.length l

/-- Match `(SOURCE_\w+)(?!\])` at the head of the input.  When the maximal
word run is followed by a literal `]` the regex engine gives one character
back to satisfy the negative lookahead, which only succeeds when the run has
at least two characters. -/
def matchBare (l : List Char) : Option (List Char × List Char) :=
  match parseTagBody l with
  | some (body, r2) =>
    match r2 with
    | [] => some (body, r2)
    | d :: _ =>
      if d = ']' then
        if srcLit.length + 2 ≤ body.length then some (body.dropLast, body.getLastD '_' :: r2)
        else none
      else some (body, r2)
  | none => none

/-- Scanner for `SourceRegistry._normalize_bare_tags`; `prev` is the character
just before the current position in the original text, used by the `(?<!\[)`
lookbehind. -/
def nbAux : Nat → Option Char → List Char → List Char
  | 0, _, l => l
  | _ + 1, _, [] => []
  | fuel + 1, prev, c :: cs =>
    match (if prev = some '[' then none else matchBare (c :: cs)) with
    | some (body, rest) => '[' :: (body ++ (']' :: nbAux fuel (some (body.getLastD '_')) rest))
    | none => c :: nbAux fuel (some c) cs

/-- `SourceRegistry._normalize_bare_tags`: wrap bare `SOURCE_N` references in
brackets. -/
def normalize_bare_tags (l : List Char) : List Char := nbAux l.length none l

/-- Match `\[SOURCE_\w+\]` at the head of the input, returning the input after
the match. -/
def matchStrip : List Char → Option (List Char)
  | [] => none
  | c :: r =>
    if c = '[' then
      match parseTagBody r with
      | some (_, r1) =>
        match r1 with
        | [] => none
        | d :: r2 => if d = ']' then some r2 else none
      | none => none
    else none

/-- Scanner for the final cleanup `re.sub(r'\[SOURCE_\w+\]', '', text)`. -/
def stripTagsAux : Nat → List Char → List Char
  | 0, l => l
  | _ + 1, [] => []
  | fuel + 1, c :: cs =>
    match matchStrip (c :: cs) with
    | some rest => stripTagsAux fuel rest
    | none => c :: stripTagsAux fuel cs

/-- Final cleanup pass of `substitute`: delete every `\[SOURCE_\w+\]`
occurrence in a single left-to-right pass. -/
def stripTags (l : List Char) : List Char := stripTagsAux l.length l

/-- `containsTag l` holds when `l` contains an occurrence of the bracketed tag
pattern `\[SOURCE_\w+\]` (the spec's "bracket-tag syntax"). -/
def containsTag : List Char → Bool
  | [] => false
  | c :: cs => (matchStrip (c :: cs)).isSome || containsTag cs

/-- Decimal digit character, `digitChar n` for `n < 10`. -/
def digitChar : Nat → Char
  | 0 => '0' | 1 => '1' | 2 => '2' | 3 => '3' | 4 => '4'
  | 5 => '5' | 6 => '6' | 7 => '7' | 8 => '8' | 9 => '9'
  | _ => '?'

/-- Worker for `natDigits`; the fuel (always initialised above the number of
decimal digits) keeps the recursion structural. -/
def natDigitsAux : Nat → Nat → List Char
  | 0, _ => []
  | fuel + 1, n =>
    if n < 10 then [digitChar n]
    else natDigitsAux fuel (n / 10) ++ [digitChar (n % 10)]

/-- Decimal representation of a natural number (Python `f"{n}"`). -/
def natDigits (n : Nat) : List Char := natDigitsAux (n + 1) n

/-- The placeholder tag string `f"[SOURCE_{n}]"`. -/
def tagStr (n : Nat) : List Char := '[' :: (srcLit ++ (natDigits n ++ [']']))

/-- `SourceItem` of `source_registry.py`. -/
structure SourceItem where
  url : List Char
  title : List Char
  source_name : List Char
deriving DecidableEq, Repr

/-- `SourceRegistry.MAX_SIZE`. -/
def MAX_SIZE : Nat := 500

/-- State of a `SourceRegistry`: the insertion-ordered `tag -> item` dict, the
`url -> tag` dict, and the number of values the never-reset counter generator
has yielded so far (the next yield is `counter + 1`). -/
structure SourceRegistry where
  sources : List (List Char × SourceItem)
  url_to_tag : List (List Char × List Char)
  counter : Nat
deriving DecidableEq, Repr

/-- `SourceRegistry.__init__`. -/
def SourceRegistry.init : SourceRegistry := ⟨[], [], 0⟩

/-- Dictionary lookup on the `url -> tag` association list. -/
def alookup (k : List Char) : List (List Char × List Char) → Option (List Char)
  | [] => none
  | (k', v) :: rest => if k' = k then some v else alookup k rest

/-- Dictionary deletion (`del d[k]`; keys are unique in reachable states). -/
def aerase (k : List Char) : List (List Char × List Char) → List (List Char × List Char)
  | [] => []
  | (k', v) :: rest => if k' = k then aerase k rest else (k', v) :: aerase k rest

/-- Stored title: `title if title else "Source"`. -/
def mkTitle (title : List Char) : List Char := if title = [] then "Source".toList else title

/-- `SourceRegistry.register`: returns the placeholder tag and the updated
registry.  Empty/whitespace-only URLs are rejected, duplicate URLs return the
existing tag, and at capacity the oldest entry is evicted before inserting. -/
def SourceRegistry.register (st : SourceRegistry) (url title source_name : List Char) :
    List Char × SourceRegistry :=
  if pyStrip url = [] then ([], st)
  else
    let u := pyStrip url
    match alookup u st.url_to_tag with
    | some tag => (tag, st)
    | none =>
      let st1 :=
        if MAX_SIZE ≤ st.sources.length then
          match st.sources with
          | [] => st
          | (_, oldest) :: rest =>
            { st with sources := rest, url_to_tag := aerase oldest.url st.url_to_tag }
        else st
      let tag := tagStr (st.counter + 1)
      let item : SourceItem := ⟨u, mkTitle title, source_name⟩
      (tag, { sources := st1.sources ++ [(tag, item)],
              url_to_tag := st1.url_to_tag ++ [(u, tag)],
              counter := st.counter + 1 })

/-- Rendered markdown link `f"[{item.title}]({item.url})"`. -/
def renderLink (item : SourceItem) : List Char :=
  '[' :: (item.title ++ (']' :: '(' :: (item.url ++ [')'])))

/-- Primary pass of `substitute`: replace each registered tag, in registry
order, by its rendered link. -/
def primaryPass (entries : List (List Char × SourceItem)) (text : List Char) : List Char :=
  entries.foldl (fun t p => pyReplace p.1 (renderLink p.2) t) text

/-- The literal `f"({name})"` pattern of the fallback pass. -/
def parenPat (name : List Char) : List Char := '(' :: (name ++ [')'])

/-- One step of the fallback pass; the first component of the accumulator is
the `seen` set of origin names already processed. -/
def fallbackStep (acc : List (List Char) × List Char) (p : List Char × SourceItem) :
    List (List Char) × List Char :=
  let name := p.2.source_name
  if name = [] ∨ name ∈ acc.1 then acc
  else
    (name :: acc.1,
     if containsSub (parenPat name) acc.2 then pyReplace (parenPat name) (renderLink p.2) acc.2
     else acc.2)

/-- Fallback pass of `substitute`: replace `(source_name)` patterns, each
origin name at most once. -/
def fallbackPass (entries : List (List Char × SourceItem)) (text : List Char) : List Char :=
  (entries.foldl fallbackStep ([], text)).2

/-- `SourceRegistry.substitute`: compound-tag expansion, bare-tag
normalization, registered-tag replacement, origin-name fallback, and the
stray-tag cleanup, in that order. -/
def SourceRegistry.substitute (st : SourceRegistry) (text : List Char) : List Char :=
  if text = [] then text
  else
    let t1 := expand_compound_tags text
    let t2 := normalize_bare_tags t1
    let t3 := primaryPass st.sources t2
    let t4 := fallbackPass st.sources t3
    stripTags t4

/-! ### Sequences of `register` calls (claims C2–C5) -/

/-- One `register` call's arguments. -/
structure RegInput where
  url : List Char
  title : List Char
  source_name : List Char
deriving DecidableEq, Repr

/-- State after one `register` call. -/
def regStep (st : SourceRegistry) (i : RegInput) : SourceRegistry :=
  (st.register i.url i.title i.source_name).2

/-- State after a sequence of `register` calls. -/
def runReg (st : SourceRegistry) (ins : List RegInput) : SourceRegistry :=
  ins.foldl regStep st

/-- `issues st url` is `some n` when a `register` call with this URL on state
`st` issues the fresh counter value `n` (the tag number of `f"[SOURCE_{n}]"`),
and `none` when the call is a no-op (blank URL) or a deduplication hit. -/
def issues (st : SourceRegistry) (url : List Char) : Option Nat :=
  if pyStrip url = [] then none
  else
    match alookup (pyStrip url) st.url_to_tag with
    | some _ => none
    | none => some (st.counter + 1)

/-- Tag numbers issued along a sequence of `register` calls. -/
def issuedNums : SourceRegistry → List RegInput → List Nat
  | _, [] => []
  | st, i :: ins => (issues st i.url).toList ++ issuedNums (regStep st i) ins

/-- A registry state reachable from `__init__` by `register` calls (the only
operations that produce registry states in the program). -/
def Reachable (st : SourceRegistry) : Prop :=
  ∃ ins : List RegInput, st = runReg SourceRegistry.init ins

/-- Registering a plain URL list, with empty titles and origin names
(claim C4's scenario). -/
def regAllU (us : List (List Char)) : SourceRegistry :=
  us.foldl (fun st u => (st.register u [] []).2) SourceRegistry.init

/-- The live `sources` dict after fresh registrations of `us`, the first
receiving tag number `start`. -/
def expectedEntries (start : Nat) : List (List Char) → List (List Char × SourceItem)
  | [] => []
  | u :: us => (tagStr start, ⟨u, mkTitle [], []⟩) :: expectedEntries (start + 1) us

/-- The `url_to_tag` dict after fresh registrations of `us`, the first
receiving tag number `start`. -/
def expectedUrlTag (start : Nat) : List (List Char) → List (List Char × List Char)
  | [] => []
  | u :: us => (u, tagStr start) :: expectedUrlTag (start + 1) us

/-- Spec-side description for claim C6: keep, in registry order, only the
first entry bearing each nonempty origin name not already in `seen`. -/
def dedupByName (seen : List (List Char)) : List (List Char × SourceItem) →
    List (List Char × SourceItem)
  | [] => []
  | e :: es =>
    if e.2.source_name = [] ∨ e.2.source_name ∈ seen then dedupByName seen es
    else e :: dedupByName (e.2.source_name :: seen) es

/-- Spec-side fallback pass for claim C6: one replacement pass per origin
name, the first-registered entry bearing the name winning. -/
def fallbackSpec (entries : List (List Char × SourceItem)) (text : List Char) : List Char :=
  (dedupByName [] entries).foldl
    (fun t e => pyReplace (parenPat e.2.source_name) (renderLink e.2) t) text

/-! ### Chat history (claim C7), from `src/chat_history.py` -/

/-- Parts of a `ModelRequest` that `ChatHistoryManager` distinguishes. -/
inductive ReqPart where
  | userPrompt (content : List Char)
  | toolReturn (content : List Char)
deriving DecidableEq, Repr

/-- Parts of a `ModelResponse` that `ChatHistoryManager` distinguishes. -/
inductive RespPart where
  | textPart (content : List Char)
  | toolCall (payload : List Char)
deriving DecidableEq, Repr

/-- A pydantic-ai `ModelMessage`: a request or a response with parts. -/
inductive ModelMessage where
  | request (parts : List ReqPart)
  | response (parts : List RespPart)
deriving DecidableEq, Repr

/-- `MAX_HISTORY` (the settings default 30). -/
def MAX_HISTORY : Nat := 30

/-- Whether a request part is a `UserPromptPart`. -/
def isUserPrompt : ReqPart → Bool
  | .userPrompt _ => true
  | _ => false

/-- Whether a message is a `ModelRequest` with a `UserPromptPart` (the turn
boundary test of `_split_into_turns`). -/
def isUserRequest : ModelMessage → Bool
  | .request parts => parts.any isUserPrompt
  | _ => false

/-- Loop body of `_split_into_turns`: flush `current` into `turns` at a new
user request, then append the message to `current`. -/
def splitStep (acc : List (List ModelMessage) × List ModelMessage) (msg : ModelMessage) :
    List (List ModelMessage) × List ModelMessage :=
  let acc' :=
    if isUserRequest msg then
      ((if acc.2 = [] then acc.1 else acc.1 ++ [acc.2]), ([] : List ModelMessage))
    else acc
  (acc'.1, acc'.2 ++ [msg])

/-- `ChatHistoryManager._split_into_turns`. -/
def splitIntoTurns (msgs : List ModelMessage) : List (List ModelMessage) :=
  let p := msgs.foldl splitStep ([], [])
  if p.2 = [] then p.1 else p.1 ++ [p.2]

/-- A response part's usable answer text: a `TextPart` whose stripped content
is nonempty (the unstripped content is returned). -/
def partAnswer : RespPart → Option (List Char)
  | .textPart c => if pyStrip c = [] then none else some c
  | _ => none

/-- Last usable answer text in one message, scanning its parts backwards. -/
def msgAnswer : ModelMessage → Option (List Char)
  | .response parts => parts.reverse.findSome? partAnswer
  | _ => none

/-- `ChatHistoryManager._extract_answer`: last usable answer text in a turn,
scanning messages backwards. -/
def extractAnswer (turn : List ModelMessage) : Option (List Char) :=
  turn.reverse.findSome? msgAnswer

/-- `ChatHistoryManager._compress_turn`: reduce a completed turn to
`[turn[0], ModelResponse([TextPart(answer)])]`, or drop it entirely when no
answer can be extracted.  (Turns produced by `_split_into_turns` are never
empty, so the inner `[]` case is unreachable.) -/
def compressTurn (turn : List ModelMessage) : List ModelMessage :=
  match extractAnswer turn with
  | none => []
  | some a =>
    match turn with
    | [] => []
    | t0 :: _ => [t0, .response [.textPart a]]

/-- `ChatHistoryManager._compress`. -/
def compress (msgs : List ModelMessage) : List ModelMessage :=
  if msgs = [] then msgs
  else
    let turns := splitIntoTurns msgs
    if turns.length ≤ 1 then msgs.drop (msgs.length - MAX_HISTORY)
    else
      let compressed := (turns.dropLast.map compressTurn).flatten ++ turns.getLastD []
      if MAX_HISTORY < compressed.length then compressed.drop (compressed.length - MAX_HISTORY)
      else compressed

/-- Lookup in the per-chat history dict. -/
def hlookup (k : Int) : List (Int × List ModelMessage) → Option (List ModelMessage)
  | [] => none
  | (k', v) :: rest => if k' = k then some v else hlookup k rest

/-- Assignment in the per-chat history dict. -/
def hset (k : Int) (v : List ModelMessage) : List (Int × List ModelMessage) →
    List (Int × List ModelMessage)
  | [] => [(k, v)]
  | (k', v') :: rest => if k' = k then (k', v) :: rest else (k', v') :: hset k v rest

/-- `dict.pop(k, None)` on the per-chat history dict. -/
def herase (k : Int) : List (Int × List ModelMessage) → List (Int × List ModelMessage)
  | [] => []
  | (k', v) :: rest => if k' = k then herase k rest else (k', v) :: herase k rest

/-- `ChatHistoryManager` state: the `_histories` dict. -/
structure ChatHistoryManager where
  histories : List (Int × List ModelMessage)
deriving DecidableEq, Repr

/-- `ChatHistoryManager.get`. -/
def ChatHistoryManager.get (m : ChatHistoryManager) (chat_id : Int) : List ModelMessage :=
  (hlookup chat_id m.histories).getD []

/-- `ChatHistoryManager.update`: compress and store. -/
def ChatHistoryManager.update (m : ChatHistoryManager) (chat_id : Int)
    (messages : List ModelMessage) : ChatHistoryManager :=
  ⟨hset chat_id (compress messages) m.histories⟩

/-- `ChatHistoryManager.clear`. -/
def ChatHistoryManager.clear (m : ChatHistoryManager) (chat_id : Int) : ChatHistoryManager :=
  ⟨herase chat_id m.histories⟩

/-- A 16-turn message list: 15 completed two-message turns followed by a
three-message final turn (33 records once compressed, exceeding
`MAX_HISTORY = 30`). -/
def cexMsgs : List ModelMessage :=
  (List.replicate 15
      [ModelMessage.request [ReqPart.userPrompt "q".toList],
       ModelMessage.response [RespPart.textPart "a".toList]]).flatten ++
    [ModelMessage.request [ReqPart.userPrompt "q2".toList],
     ModelMessage.response [RespPart.toolCall "x".toList],
     ModelMessage.response [RespPart.textPart "a2".toList]]

/-! ### Ollama transport (claim C8), from `src/ollama_transport.py` -/

/-- JSON values (numbers restricted to integers; the claims do not depend on
float formatting). -/
inductive Json where
  | null
  | bool (b : Bool)
  | num (n : Int)
  | str (s : List Char)
  | arr (elems : List Json)
  | obj (fields : List (List Char × Json))

/-- Lookup in a JSON object (Python dict: keys unique, insertion-ordered). -/
def jlookup (k : List Char) : List (List Char × Json) → Option Json
  | [] => none
  | (k', v) :: rest => if k' = k then some v else jlookup k rest

/-- Dict assignment on a JSON object: replace in place, or append a missing
key at the end, as CPython dicts do. -/
def jset (k : List Char) (v : Json) : List (List Char × Json) → List (List Char × Json)
  | [] => [(k, v)]
  | (k', v') :: rest => if k' = k then (k', v) :: rest else (k', v') :: jset k v rest

/-- Minimal JSON string escaping (enough for the ASCII bodies the claims
exercise). -/
def escChar (c : Char) : List Char :=
  if c = '"' then ['\\', '"']
  else if c = '\\' then ['\\', '\\']
  else if c = '\n' then ['\\', 'n']
  else if c = '\t' then ['\\', 't']
  else if c = '\r' then ['\\', 'r']
  else [c]

/-- Escape a JSON string body. -/
def jsonEscape (s : List Char) : List Char := (s.map escChar).flatten

/-- Decimal representation of an integer. -/
def intRepr (n : Int) : List Char :=
  if n < 0 then '-' :: natDigits n.natAbs else natDigits n.toNat

mutual

/-- `json.dumps(body, separators=(',', ':'))`: compact serialization, object
keys in insertion order. -/
def dumps : Json → List Char
  | .null => "null".toList
  | .bool true => "true".toList
  | .bool false => "false".toList
  | .num n => intRepr n
  | .str s => '"' :: (jsonEscape s ++ ['"'])
  | .arr es => '[' :: (dumpsList es ++ [']'])
  | .obj fs => '\x7b' :: (dumpsFields fs ++ ['\x7d'])

/-- Comma-separated array elements. -/
def dumpsList : List Json → List Char
  | [] => []
  | [e] => dumps e
  | e :: es => dumps e ++ (',' :: dumpsList es)

/-- Comma-separated `"key":value` fields. -/
def dumpsFields : List (List Char × Json) → List Char
  | [] => []
  | [(k, v)] => '"' :: (jsonEscape k ++ ('"' :: ':' :: dumps v))
  | (k, v) :: fs => ('"' :: (jsonEscape k ++ ('"' :: ':' :: dumps v))) ++ (',' :: dumpsFields fs)

end

/-- An outgoing HTTP request.  `content` holds the parsed JSON body, `none`
standing for a body on which `json.loads` raises. -/
structure PyRequest where
  method : List Char
  url : List Char
  headers : List (List Char × List Char)
  content : Option Json

/-- An HTTP response with its status code. -/
structure PyResponse where
  status : Nat
  body : List Char
deriving DecidableEq, Repr

/-- `OllamaRetryTransport.MAX_RETRIES`. -/
def MAX_RETRIES : Nat := 3

/-- Whether a JSON value is an object. -/
def isJsonObj : Json → Bool
  | .obj _ => true
  | _ => false

/-- `msg.get('content') is None`: true when the `content` key is absent or
bound to JSON `null` (Python `dict.get` returns `None` in both cases). -/
def contentNullOrMissing : Json → Bool
  | .obj fs =>
    match jlookup "content".toList fs with
    | none => true
    | some v =>
      match v with
      | .null => true
      | _ => false
  | _ => false

/-- `msg['content'] = ''` applied when `msg.get('content') is None`. -/
def fixMsg : Json → Json
  | .obj fs =>
    match jlookup "content".toList fs with
    | none => .obj (jset "content".toList (.str []) fs)
    | some v =>
      match v with
      | .null => .obj (jset "content".toList (.str []) fs)
      | _ => .obj fs
  | m => m

/-- Header-dict assignment (for the recomputed `content-length`). -/
def setHeader (k v : List Char) : List (List Char × List Char) → List (List Char × List Char)
  | [] => [(k, v)]
  | (k', v') :: rest => if k' = k then (k', v) :: rest else (k', v') :: setHeader k v rest

/-- `OllamaRetryTransport.fix_request`: rebuild the request with the repaired
body and a recomputed `content-length` (the body is ASCII here, so character
count equals byte count). -/
def fix_request (req : PyRequest) (body : Json) : PyRequest :=
  { method := req.method, url := req.url,
    headers := setHeader "content-length".toList (natDigits (dumps body).length) req.headers,
    content := some body }

/-- `OllamaRetryTransport._sanitize_request`.  Paths on which the Python code
raises inside the `try` block (non-object body, non-list `"messages"` value,
non-dict message) return the request unchanged, exactly as the
`except: return request` handler does. -/
def sanitizeRequest (req : PyRequest) : PyRequest :=
  match req.content with
  | none => req
  | some body =>
    match body with
    | .obj fields =>
      match jlookup "messages".toList fields with
      | none => req
      | some v =>
        match v with
        | .arr msgs =>
          if msgs.all isJsonObj then
            if msgs.any contentNullOrMissing then
              fix_request req (.obj (jset "messages".toList (.arr (msgs.map fixMsg)) fields))
            else req
          else req
        | _ => req
    | _ => req

/-- The retry loop of `handle_async_request` over the attempt numbers
`[1 .. MAX_RETRIES]`; returns the response together with the number of
retry warnings logged before returning.  The `[]` case is unreachable for
the attempt list used. -/
def retryLoop (backend : Nat → PyRequest → PyResponse) (req : PyRequest) :
    List Nat → PyResponse × Nat
  | [] => (⟨0, []⟩, 0)
  | a :: rest =>
    let resp := backend a req
    if resp.status ≠ 500 ∨ a = MAX_RETRIES then (resp, a - 1)
    else retryLoop backend req rest

/-- `OllamaRetryTransport.handle_async_request`: sanitize once, then retry on
HTTP 500 up to `MAX_RETRIES` attempts, returning the final response
regardless of status.  The backend is a pure function from attempt number
and request to response. -/
def handle_async_request (backend : Nat → PyRequest → PyResponse) (req : PyRequest) :
    PyResponse × Nat :=
  retryLoop backend (sanitizeRequest req) (List.range' 1 MAX_RETRIES)

/-- The message list of a request body, when recognizable (observation
helper for stating claims about `sanitizeRequest`). -/
def msgsOf (req : PyRequest) : Option (List Json) :=
  match req.content with
  | some body =>
    match body with
    | .obj fields =>
      match jlookup "messages".toList fields with
      | some v =>
        match v with
        | .arr msgs => some msgs
        | _ => none
      | none => none
    | _ => none
  | none => none

/-- Number of fields of a JSON object (observation helper). -/
def jsonFieldCount : Json → Nat
  | .obj fs => fs.length
  | _ => 0

/-- Field counts of a request's messages (observation helper). -/
def msgFieldCounts (req : PyRequest) : Option (List Nat) :=
  (msgsOf req).map (fun ms => ms.map jsonFieldCount)

/-- A chat request whose first message has explicitly null content and whose
second message has no `content` key at all. -/
def cexReq : PyRequest :=
  ⟨"POST".toList, "/api/chat".toList, [("content-length".toList, "70".toList)],
    some (Json.obj [("messages".toList, Json.arr
      [Json.obj [("role".toList, Json.str "user".toList), ("content".toList, Json.null)],
       Json.obj [("role".toList, Json.str "system".toList)]])])⟩

/-- A minimal request with one null-content message. -/
def witReq : PyRequest :=
  ⟨"POST".toList, "/c".toList, [],
    some (Json.obj [("messages".toList, Json.arr
      [Json.obj [("content".toList, Json.null)]])])⟩

/-- A backend that answers 500 on the first two attempts and 200 afterwards. -/
def witBackend : Nat → PyRequest → PyResponse :=
  fun a _ => if a ≤ 2 then ⟨500, []⟩ else ⟨200, "ok".toList⟩

/-! ### Call Budget Guard (claim C9) -/

/-- Modelled from the spec: the repository source under `src/` contains no
Call Budget Guard implementation (no `exhausted` operation exists anywhere
under `src/`); this models spec §4.4: "increments an internal counter every
call and returns whether the configured ceiling has now been exceeded". -/
structure CallBudgetGuard where
  ceiling : Nat
  count : Nat
deriving DecidableEq, Repr

/-- A freshly constructed guard with the configured ceiling. -/
def CallBudgetGuard.mk0 (ceiling : Nat) : CallBudgetGuard := ⟨ceiling, 0⟩

/-- `exhausted()`: increment the counter, return whether the ceiling has now
been exceeded (with the updated guard, since the model is pure). -/
def CallBudgetGuard.exhausted (g : CallBudgetGuard) : Bool × CallBudgetGuard :=
  (decide (g.ceiling < g.count + 1), ⟨g.ceiling, g.count + 1⟩)

/-- The guard after `n` calls to `exhausted()`. -/
def runGuard (g : CallBudgetGuard) : Nat → CallBudgetGuard
  | 0 => g
  | n + 1 => ((runGuard g n).exhausted).2

/-- Result of the `n`-th call (1-based) to `exhausted()` on a fresh guard
with ceiling `K`. -/
def nthExhausted (K n : Nat) : Bool :=
  ((runGuard (CallBudgetGuard.mk0 K) (n - 1)).exhausted).1

/-! ### Basic lemmas about the substring primitives -/

theorem isPre_cons {a b : Char} {as bs : List Char} :
    isPre (a :: as) (b :: bs) = true → a = b ∧ isPre as bs = true := by
  intro h
  simp only [isPre, Bool.and_eq_true, decide_eq_true_eq] at h
  exact h

theorem isPre_exists {p l : List Char} (h : isPre p l = true) : ∃ t, l = p ++ t := by
  induction p generalizing l with
  | nil => exact ⟨l, rfl⟩
  | cons a as ih =>
    cases l with
    | nil => simp [isPre] at h
    | cons b bs =>
      obtain ⟨hab, h2⟩ := isPre_cons h
      obtain ⟨t, ht⟩ := ih h2
      exact ⟨t, by simp [hab, ht]⟩

theorem isPre_self_append (p t : List Char) : isPre p (p ++ t) = true := by
  induction p with
  | nil => rfl
  | cons a as ih => simp [isPre, ih]

theorem mem_of_isPre {p l : List Char} {c : Char} (h : isPre p l = true) (hc : c ∈ p) :
    c ∈ l := by
  obtain ⟨t, ht⟩ := isPre_exists h
  subst ht
  exact List.mem_append_left _ hc

theorem length_le_of_isPre {p l : List Char} (h : isPre p l = true) : p.length ≤ l.length := by
  obtain ⟨t, ht⟩ := isPre_exists h
  subst ht
  simp

theorem eq_of_isPre_of_length {p l : List Char} (h : isPre p l = true)
    (hl : l.length ≤ p.length) : p = l := by
  obtain ⟨t, ht⟩ := isPre_exists h
  subst ht
  have ht0 : t = [] := by
    cases t with
    | nil => rfl
    | cons x xs =>
      exfalso
      simp only [List.length_append, List.length_cons] at hl
      omega
  simp [ht0]

theorem isPre_of_isPre_append {p q l : List Char} (h : isPre (p ++ q) l = true) :
    isPre p l = true := by
  induction p generalizing l with
  | nil => rfl
  | cons a as ih =>
    cases l with
    | nil => simp [isPre] at h
    | cons b bs =>
      obtain ⟨hab, h2⟩ := isPre_cons (by simpa using h)
      simp [isPre, hab, ih h2]

theorem containsSub_of_isPre {p l : List Char} (h : isPre p l = true) :
    containsSub p l = true := by
  cases l with
  | nil =>
    cases p with
    | nil => rfl
    | cons a as => simp [isPre] at h
  | cons c cs => simp [containsSub, h]

theorem containsSub_cons_of_tail {p : List Char} {c : Char} {cs : List Char}
    (h : containsSub p cs = true) : containsSub p (c :: cs) = true := by
  simp [containsSub, h]

theorem mem_of_containsSub {p l : List Char} {c : Char} (h : containsSub p l = true)
    (hc : c ∈ p) : c ∈ l := by
  induction l with
  | nil =>
    cases p with
    | nil => cases hc
    | cons a as => simp [containsSub] at h
  | cons b bs ih =>
    simp only [containsSub, Bool.or_eq_true] at h
    rcases h with h | h
    · exact mem_of_isPre h hc
    · exact List.mem_cons_of_mem _ (ih h)

theorem length_le_of_containsSub {p l : List Char} (h : containsSub p l = true) :
    p.length ≤ l.length := by
  induction l with
  | nil =>
    cases p with
    | nil => simp
    | cons a as => simp [containsSub] at h
  | cons b bs ih =>
    simp only [containsSub, Bool.or_eq_true] at h
    rcases h with h | h
    · exact length_le_of_isPre h
    · exact le_trans (ih h) (by simp)

theorem eq_of_containsSub_of_length {p l : List Char} (h : containsSub p l = true)
    (hl : l.length ≤ p.length) : p = l := by
  cases l with
  | nil =>
    cases p with
    | nil => rfl
    | cons a as => simp [containsSub] at h
  | cons b bs =>
    simp only [containsSub, Bool.or_eq_true] at h
    rcases h with h | h
    · exact eq_of_isPre_of_length h hl
    · have := length_le_of_containsSub h
      simp at hl
      omega

theorem containsSub_of_isPre_append {x p y l : List Char}
    (h : isPre (x ++ (p ++ y)) l = true) : containsSub p l = true := by
  induction x generalizing l with
  | nil => exact containsSub_of_isPre (isPre_of_isPre_append (by simpa using h))
  | cons a as ih =>
    cases l with
    | nil => simp [isPre] at h
    | cons b bs =>
      obtain ⟨_, h2⟩ := isPre_cons (by simpa using h)
      exact containsSub_cons_of_tail (ih h2)

theorem containsSub_of_within {x p y l : List Char}
    (h : containsSub (x ++ (p ++ y)) l = true) : containsSub p l = true := by
  induction l with
  | nil =>
    simp only [containsSub, List.isEmpty_iff, List.append_eq_nil] at h
    simp [h.2.1, containsSub]
  | cons b bs ih =>
    simp only [containsSub, Bool.or_eq_true] at h
    rcases h with h | h
    · exact containsSub_of_isPre_append h
    · exact containsSub_cons_of_tail (ih h)

theorem replaceAux_eq_self {pat rep : List Char} (hne : pat ≠ [])
    (fuel : Nat) (l : List Char) (h : containsSub pat l = false) :
    replaceAux pat rep fuel l = l := by
  induction fuel generalizing l with
  | zero => rfl
  | succ fuel ih =>
    cases l with
    | nil => rfl
    | cons c cs =>
      simp only [containsSub, Bool.or_eq_false_iff] at h
      simp only [replaceAux, h.1, Bool.false_eq_true, if_false]
      rw [ih cs h.2]

theorem pyReplace_eq_self {pat rep l : List Char} (hne : pat ≠ [])
    (h : containsSub pat l = false) : pyReplace pat rep l = l := by
  cases pat with
  | nil => exact absurd rfl hne
  | cons p ps => exact replaceAux_eq_self (by simp) _ _ h

theorem primaryPass_eq_self {entries : List (List Char × SourceItem)} {text : List Char}
    (h : ∀ p ∈ entries, p.1 ≠ [] ∧ containsSub p.1 text = false) :
    primaryPass entries text = text := by
  induction entries with
  | nil => rfl
  | cons e es ih =>
    have he := h e (List.mem_cons_self e es)
    simp only [primaryPass, List.foldl_cons]
    rw [pyReplace_eq_self he.1 he.2]
    exact ih fun p hp => h p (List.mem_cons_of_mem _ hp)

theorem fallbackFold_eq_self {entries : List (List Char × SourceItem)} {text : List Char}
    (h : '(' ∉ text) :
    ∀ seen, (entries.foldl fallbackStep (seen, text)).2 = text := by
  induction entries with
  | nil => intro seen; rfl
  | cons e es ih =>
    intro seen
    simp only [List.foldl_cons]
    by_cases hskip : e.2.source_name = [] ∨ e.2.source_name ∈ seen
    · rw [show fallbackStep (seen, text) e = (seen, text) by simp [fallbackStep, hskip]]
      exact ih seen
    · have hpat : containsSub (parenPat e.2.source_name) text = false := by
        cases hcs : containsSub (parenPat e.2.source_name) text
        · rfl
        · exact absurd (mem_of_containsSub hcs (by simp [parenPat])) h
      rw [show fallbackStep (seen, text) e = (e.2.source_name :: seen, text) by
        simp [fallbackStep, hskip, hpat]]
      exact ih _

theorem fallbackPass_eq_self {entries : List (List Char × SourceItem)} {text : List Char}
    (h : '(' ∉ text) : fallbackPass entries text = text :=
  fallbackFold_eq_self h []

/-! ### Lemmas about the cleanup scanner, for claim C1 -/

theorem parseTagBody_length {l b r : List Char} (h : parseTagBody l = some (b, r)) :
    r.length + 8 ≤ l.length := by
  simp only [parseTagBody] at h
  split at h
  · next hpre =>
    split at h
    · exact absurd h (by simp)
    · next hw =>
      rw [Option.some.injEq, Prod.mk.injEq] at h
      obtain ⟨heq1, heq2⟩ := h
      obtain ⟨t, ht⟩ := isPre_exists hpre
      subst ht
      have hdrop : (srcLit ++ t).drop srcLit.length = t := by simp
      rw [hdrop] at hw heq2
      have h1 : 1 ≤ (t.takeWhile isWordChar).length := by
        cases hta : t.takeWhile isWordChar with
        | nil => rw [hta] at hw; simp at hw
        | cons x xs => simp [hta]
      have h2 : (t.takeWhile isWordChar).length + (t.dropWhile isWordChar).length = t.length := by
        rw [← List.length_append, List.takeWhile_append_dropWhile]
      have h7 : srcLit.length = 7 := rfl
      have h3 : (srcLit ++ t).length = 7 + t.length := by
        rw [List.length_append, h7]
      rw [← heq2]
      omega
  · exact absurd h (by simp)

theorem matchStrip_length {l r : List Char} (h : matchStrip l = some r) :
    r.length + 9 ≤ l.length := by
  cases l with
  | nil => simp [matchStrip] at h
  | cons c cs =>
    simp only [matchStrip] at h
    split at h
    · cases hp : parseTagBody cs with
      | none => rw [hp] at h; simp at h
      | some pr =>
        obtain ⟨b, r1⟩ := pr
        rw [hp] at h
        cases r1 with
        | nil => simp at h
        | cons d r2 =>
          change (if d = ']' then some r2 else none) = some r at h
          split at h
          · rw [Option.some.injEq] at h
            subst h
            have := parseTagBody_length hp
            simp only [List.length_cons] at this ⊢
            omega
          · simp at h
    · simp at h

theorem stripTagsAux_length_le (fuel : Nat) (l : List Char) :
    (stripTagsAux fuel l).length ≤ l.length := by
  induction fuel generalizing l with
  | zero => simp [stripTagsAux]
  | succ fuel ih =>
    cases l with
    | nil => simp [stripTagsAux]
    | cons c cs =>
      simp only [stripTagsAux]
      cases hm : matchStrip (c :: cs) with
      | some rest =>
        simp only [hm]
        have h1 := matchStrip_length hm
        have h2 := ih rest
        simp only [List.length_cons] at h1 ⊢
        omega
      | none =>
        simp only [hm]
        have h2 := ih cs
        simp only [List.length_cons]
        omega

theorem containsTag_eq_false_of_fix (fuel : Nat) (z : List Char) (hfuel : z.length ≤ fuel)
    (h : stripTagsAux fuel z = z) : containsTag z = false := by
  induction fuel generalizing z with
  | zero =>
    have hz : z = [] := List.length_eq_zero.mp (by omega)
    simp [hz, containsTag]
  | succ fuel ih =>
    cases z with
    | nil => rfl
    | cons c cs =>
      simp only [stripTagsAux] at h
      cases hm : matchStrip (c :: cs) with
      | some rest =>
        rw [hm] at h
        have h1 := matchStrip_length hm
        have h2 := stripTagsAux_length_le fuel rest
        have h3 := congrArg List.length h
        simp only [List.length_cons] at h1 h3
        omega
      | none =>
        rw [hm] at h
        have h2 : stripTagsAux fuel cs = cs := by
          injection h
        have h3 := ih cs (by simp only [List.length_cons] at hfuel; omega) h2
        simp [containsTag, hm, h3]

/-- Claim C1 (corrected): if the cleanup pass is a no-op on the output of
`substitute` (a second cleanup pass changes nothing — true except when
deleting one tag splices a new tag occurrence out of the surrounding text),
then the output of `substitute` contains no bracket-tag syntax at all. -/
theorem claim_c1 (st : SourceRegistry) (text : List Char)
    (h : stripTags (st.substitute text) = st.substitute text) :
    containsTag (st.substitute text) = false :=
  containsTag_eq_false_of_fix _ _ le_rfl h

/-- Claim C1 counterexample: on the empty registry and the input
`[SOURCE[SOURCE_1]_2]`, deleting the unregistered tag `[SOURCE_1]` splices
together the surrounding characters into the fresh tag `[SOURCE_2]`, which
the single-pass cleanup does not revisit, so bracket-tag syntax survives in
the output — the claim asserts the output contains none at all. -/
theorem claim_c1_cex :
    SourceRegistry.init.substitute "[SOURCE[SOURCE_1]_2]".toList = "[SOURCE_2]".toList ∧
    containsTag (SourceRegistry.init.substitute "[SOURCE[SOURCE_1]_2]".toList) = true := by
  constructor <;> decide

/-- Witness for `claim_c1` at a concrete registry and text. -/
theorem claim_c1_wit :
    containsTag ((SourceRegistry.init.register "http://a".toList "T".toList []).2.substitute
      "[SOURCE_1] and [SOURCE_7]!".toList) = false :=
  claim_c1 (SourceRegistry.init.register "http://a".toList "T".toList []).2
    "[SOURCE_1] and [SOURCE_7]!".toList (by decide)

/-! ### Call Budget Guard (claim C9) -/

theorem runGuard_count (g : CallBudgetGuard) (m : Nat) :
    (runGuard g m).count = g.count + m := by
  induction m with
  | zero => rfl
  | succ m ih =>
    have hstep : (runGuard g (m + 1)).count = (runGuard g m).count + 1 := rfl
    rw [hstep, ih]
    omega

theorem runGuard_ceiling (g : CallBudgetGuard) (m : Nat) :
    (runGuard g m).ceiling = g.ceiling := by
  induction m with
  | zero => rfl
  | succ m ih =>
    have hstep : (runGuard g (m + 1)).ceiling = (runGuard g m).ceiling := rfl
    rw [hstep, ih]

/-- Claim C9 (confirmed, modelled from the spec: no Call Budget Guard exists
under `src/`): on a fresh guard with ceiling `K`, the `n`-th `exhausted()`
call increments the counter and returns `false` for calls `1..K` and `true`
from call `K+1` onward; per-stage freshness is construction with a zero
counter. -/
theorem claim_c9 (K n : Nat) (h : 1 ≤ n) : nthExhausted K n = true ↔ K < n := by
  have h1 := runGuard_count (CallBudgetGuard.mk0 K) (n - 1)
  have h2 := runGuard_ceiling (CallBudgetGuard.mk0 K) (n - 1)
  have h3 : (CallBudgetGuard.mk0 K).count = 0 := rfl
  have h4 : (CallBudgetGuard.mk0 K).ceiling = K := rfl
  rw [h3] at h1
  rw [h4] at h2
  have h5 : nthExhausted K n =
      decide ((runGuard (CallBudgetGuard.mk0 K) (n - 1)).ceiling <
        (runGuard (CallBudgetGuard.mk0 K) (n - 1)).count + 1) := rfl
  rw [h5, h1, h2, decide_eq_true_eq]
  omega

/-- Witness for `claim_c9`: with ceiling 2, call 2 is not exhausted and
call 3 is. -/
theorem claim_c9_wit :
    (nthExhausted 2 3 = true ↔ 2 < 3) ∧ (nthExhausted 2 2 = true ↔ 2 < 2) :=
  ⟨claim_c9 2 3 (by decide), claim_c9 2 2 (by decide)⟩

/-! ### Tag monotonicity (claim C2) -/

theorem issues_eq (st : SourceRegistry) (u : List Char) {n : Nat}
    (h : issues st u = some n) : n = st.counter + 1 := by
  unfold issues at h
  split at h
  · simp at h
  · cases ha : alookup (pyStrip u) st.url_to_tag <;> rw [ha] at h <;> simp_all

theorem register_counter (st : SourceRegistry) (u t o : List Char) :
    (st.register u t o).2.counter =
      if (issues st u).isSome then st.counter + 1 else st.counter := by
  unfold SourceRegistry.register issues
  split
  · simp
  · cases h : alookup (pyStrip u) st.url_to_tag <;> simp [h]

theorem regStep_counter_ge (st : SourceRegistry) (i : RegInput) :
    st.counter ≤ (regStep st i).counter := by
  unfold regStep
  rw [register_counter]
  split <;> omega

theorem issuedNums_gt (ins : List RegInput) :
    ∀ st, ∀ n ∈ issuedNums st ins, st.counter < n := by
  induction ins with
  | nil => intro st n hn; simp [issuedNums] at hn
  | cons i ins ih =>
    intro st n hn
    simp only [issuedNums, List.mem_append] at hn
    rcases hn with hn | hn
    · cases hi : issues st i.url with
      | none => rw [hi] at hn; simp at hn
      | some v =>
        rw [hi] at hn
        simp [Option.toList] at hn
        subst hn
        have := issues_eq st i.url hi
        omega
    · have h1 := ih (regStep st i) n hn
      have h2 := regStep_counter_ge st i
      omega

theorem issuedNums_pairwise (ins : List RegInput) :
    ∀ st, (issuedNums st ins).Pairwise (· < ·) := by
  induction ins with
  | nil => intro st; simp [issuedNums]
  | cons i ins ih =>
    intro st
    simp only [issuedNums]
    cases hi : issues st i.url with
    | none => simpa using ih (regStep st i)
    | some v =>
      simp only [Option.toList, List.singleton_append]
      refine List.Pairwise.cons ?_ (ih (regStep st i))
      intro m hm
      have h1 := issuedNums_gt ins (regStep st i) m hm
      have h2 : (regStep st i).counter = st.counter + 1 := by
        unfold regStep
        rw [register_counter, hi]
        simp
      have h3 := issues_eq st i.url hi
      omega

/-- Claim C2 (confirmed): along every sequence of `register` calls on one
registry instance, the tag numbers issued for newly registered URLs are
strictly increasing — hence never reused, also after evictions (the counter
never resets) — and a fresh registration returns exactly the placeholder
`[SOURCE_n]` for the issued number `n`. -/
theorem claim_c2 :
    (∀ ins : List RegInput, (issuedNums SourceRegistry.init ins).Pairwise (· < ·)) ∧
    (∀ (st : SourceRegistry) (u t o : List Char) (n : Nat),
      issues st u = some n → (st.register u t o).1 = tagStr n) := by
  constructor
  · intro ins
    exact issuedNums_pairwise ins SourceRegistry.init
  · intro st u t o n h
    have hn := issues_eq st u h
    subst hn
    unfold issues at h
    split at h
    · simp at h
    · next hne =>
      cases ha : alookup (pyStrip u) st.url_to_tag with
      | some tg => rw [ha] at h; simp at h
      | none => simp only [SourceRegistry.register, hne, ha, if_false]

/-- Witness for `claim_c2`: the first registration on a fresh registry
returns `[SOURCE_1]`. -/
theorem claim_c2_wit : (SourceRegistry.init.register "u".toList "t".toList []).1 = tagStr 1 :=
  claim_c2.2 SourceRegistry.init "u".toList "t".toList [] 1 (by decide)

/-! ### Deduplication (claim C3) -/

theorem alookup_append_of_none {k : List Char} {xs : List (List Char × List Char)}
    (h : alookup k xs = none) (ys : List (List Char × List Char)) :
    alookup k (xs ++ ys) = alookup k ys := by
  induction xs with
  | nil => simp
  | cons p ps ih =>
    obtain ⟨k2, v⟩ := p
    simp only [alookup] at h ⊢
    split at h
    · simp at h
    · next hne =>
      rw [if_neg hne]
      exact ih h

theorem alookup_aerase_none {k k' : List Char} {l : List (List Char × List Char)}
    (h : alookup k l = none) : alookup k (aerase k' l) = none := by
  induction l with
  | nil => simp [aerase, alookup]
  | cons p ps ih =>
    obtain ⟨k2, v⟩ := p
    simp only [alookup] at h
    split at h
    · simp at h
    · next hne =>
      simp only [aerase]
      split
      · exact ih h
      · simp only [alookup]
        rw [if_neg hne]
        exact ih h

theorem alookup_after_insert (st : SourceRegistry) (u t o : List Char) (hu : pyStrip u ≠ [])
    (ha : alookup (pyStrip u) st.url_to_tag = none) :
    alookup (pyStrip u) (st.register u t o).2.url_to_tag = some (st.register u t o).1 := by
  have key : ∀ A, alookup (pyStrip u) A = none → ∀ g : List Char,
      alookup (pyStrip u) (A ++ [(pyStrip u, g)]) = some g := by
    intro A hA g
    rw [alookup_append_of_none hA]
    simp [alookup]
  simp only [SourceRegistry.register, hu, ha, if_false]
  split
  · split
    · exact key _ ha _
    · exact key _ (alookup_aerase_none ha) _
  · exact key _ ha _

/-- Claim C3 (confirmed): re-registering a non-empty URL immediately returns
the tag of its first registration and leaves the registry state — live entry
count, stored title and origin included — completely unchanged. -/
theorem claim_c3 (st : SourceRegistry) (u t1 o1 t2 o2 : List Char) (hu : pyStrip u ≠ []) :
    SourceRegistry.register (st.register u t1 o1).2 u t2 o2 = st.register u t1 o1 := by
  cases ha : alookup (pyStrip u) st.url_to_tag with
  | some tg =>
    have hfirst : st.register u t1 o1 = (tg, st) := by
      simp only [SourceRegistry.register, hu, ha, if_false]
    rw [hfirst]
    simp only [SourceRegistry.register, hu, ha, if_false]
  | none =>
    set p := st.register u t1 o1 with hp
    have h2 := alookup_after_insert st u t1 o1 hu ha
    rw [← hp] at h2
    simp only [SourceRegistry.register, hu, h2, if_false, Prod.mk.eta]

/-- Witness for `claim_c3` at a concrete registry and URL. -/
theorem claim_c3_wit :
    SourceRegistry.register
        (SourceRegistry.init.register "http://x".toList "A".toList "N".toList).2
        "http://x".toList "B".toList "M".toList =
      SourceRegistry.init.register "http://x".toList "A".toList "N".toList :=
  claim_c3 SourceRegistry.init "http://x".toList "A".toList "N".toList "B".toList "M".toList
    (by decide)

/-! ### FIFO eviction (claim C4) -/

theorem digitChar_toNat {d : Nat} (h : d < 10) : (digitChar d).toNat = 48 + d := by
  interval_cases d <;> rfl

theorem digitChar_not_ws {d : Nat} (h : d < 10) : (digitChar d).isWhitespace = false := by
  interval_cases d <;> rfl

theorem natDigitsAux_ne_nil {fuel n : Nat} (h : n < fuel) : natDigitsAux fuel n ≠ [] := by
  cases fuel with
  | zero => omega
  | succ fuel =>
    simp only [natDigitsAux]
    split <;> simp

theorem natDigits_ne_nil (n : Nat) : natDigits n ≠ [] := natDigitsAux_ne_nil (by omega)

theorem natDigitsAux_inj : ∀ f1 : Nat, ∀ f2 m n : Nat, m < f1 → n < f2 →
    natDigitsAux f1 m = natDigitsAux f2 n → m = n := by
  intro f1
  induction f1 with
  | zero => intro f2 m n h; omega
  | succ f1 ih =>
    intro f2 m n hm hn heq
    cases f2 with
    | zero => omega
    | succ f2 =>
      simp only [natDigitsAux] at heq
      by_cases h1 : m < 10 <;> by_cases h2 : n < 10
      · rw [if_pos h1, if_pos h2] at heq
        have hd : digitChar m = digitChar n := by simpa using heq
        have hv := congrArg Char.toNat hd
        rw [digitChar_toNat h1, digitChar_toNat h2] at hv
        omega
      · rw [if_pos h1, if_neg h2] at heq
        have hlen := congrArg List.length heq
        simp only [List.length_cons, List.length_nil, List.length_append] at hlen
        have h3 : (natDigitsAux f2 (n / 10)).length = 0 := by omega
        have h4 := natDigitsAux_ne_nil (show n / 10 < f2 by
          have hp : 0 < n := by omega
          have := Nat.div_lt_self hp (show 1 < 10 by omega)
          omega)
        exact absurd (List.length_eq_zero.mp h3) h4
      · rw [if_neg h1, if_pos h2] at heq
        have hlen := congrArg List.length heq
        simp only [List.length_cons, List.length_nil, List.length_append] at hlen
        have h3 : (natDigitsAux f1 (m / 10)).length = 0 := by omega
        have h4 := natDigitsAux_ne_nil (show m / 10 < f1 by
          have hp : 0 < m := by omega
          have := Nat.div_lt_self hp (show 1 < 10 by omega)
          omega)
        exact absurd (List.length_eq_zero.mp h3) h4
      · rw [if_neg h1, if_neg h2] at heq
        obtain ⟨heq1, heq2⟩ := List.append_inj' heq (by simp)
        have hd : digitChar (m % 10) = digitChar (n % 10) := by simpa using heq2
        have hmod : m % 10 = n % 10 := by
          have hv := congrArg Char.toNat hd
          rw [digitChar_toNat (Nat.mod_lt _ (by omega)),
            digitChar_toNat (Nat.mod_lt _ (by omega))] at hv
          omega
        have hdm : m / 10 < f1 := by
          have hp : 0 < m := by omega
          have := Nat.div_lt_self hp (show 1 < 10 by omega)
          omega
        have hdn : n / 10 < f2 := by
          have hp : 0 < n := by omega
          have := Nat.div_lt_self hp (show 1 < 10 by omega)
          omega
        have hdiv := ih f2 (m / 10) (n / 10) hdm hdn heq1
        omega

theorem natDigits_inj {m n : Nat} (h : natDigits m = natDigits n) : m = n :=
  natDigitsAux_inj (m + 1) (n + 1) m n (by omega) (by omega) h

theorem natDigitsAux_chars {fuel : Nat} : ∀ n, n < fuel →
    ∀ c ∈ natDigitsAux fuel n, ∃ d, d < 10 ∧ c = digitChar d := by
  induction fuel with
  | zero => intro n h; omega
  | succ fuel ih =>
    intro n hn c hc
    simp only [natDigitsAux] at hc
    split at hc
    · next h10 =>
      simp at hc
      exact ⟨n, h10, hc⟩
    · next h10 =>
      simp only [List.mem_append, List.mem_singleton] at hc
      rcases hc with hc | hc
      · refine ih (n / 10) ?_ c hc
        have hp : 0 < n := by omega
        have := Nat.div_lt_self hp (show 1 < 10 by omega)
        omega
      · exact ⟨n % 10, Nat.mod_lt _ (by omega), hc⟩

theorem dropWhile_eq_self_of_all {p : Char → Bool} {l : List Char}
    (h : ∀ c ∈ l, p c = false) : l.dropWhile p = l := by
  cases l with
  | nil => rfl
  | cons c cs => simp [List.dropWhile_cons, h c (by simp)]

theorem pyStrip_eq_self {l : List Char} (h : ∀ c ∈ l, c.isWhitespace = false) :
    pyStrip l = l := by
  unfold pyStrip
  rw [dropWhile_eq_self_of_all h]
  rw [dropWhile_eq_self_of_all (by intro c hc; exact h c (List.mem_reverse.mp hc))]
  exact List.reverse_reverse l

theorem pyStrip_natDigits (n : Nat) : pyStrip (natDigits n) = natDigits n := by
  apply pyStrip_eq_self
  intro c hc
  obtain ⟨d, hd, hcd⟩ := natDigitsAux_chars n (by omega) c hc
  rw [hcd]
  exact digitChar_not_ws hd

theorem tagStr_length (n : Nat) : (tagStr n).length = 9 + (natDigits n).length := by
  have h7 : srcLit.length = 7 := rfl
  simp [tagStr, h7]
  omega

theorem tagStr_inj {m n : Nat} (h : tagStr m = tagStr n) : m = n := by
  unfold tagStr at h
  injection h with h0 h1
  have h2 := List.append_cancel_left h1
  obtain ⟨h3, _⟩ := List.append_inj' h2 (by simp)
  exact natDigits_inj h3

theorem tagStr_ne_nil (n : Nat) : tagStr n ≠ [] := by simp [tagStr]

theorem containsSub_tagStr_one {k : Nat} (hk : 2 ≤ k) :
    containsSub (tagStr k) (tagStr 1) = false := by
  cases hc : containsSub (tagStr k) (tagStr 1)
  · rfl
  · exfalso
    have hlen := length_le_of_containsSub hc
    rw [tagStr_length, tagStr_length] at hlen
    have hd1 : (natDigits 1).length = 1 := rfl
    have hdk : 1 ≤ (natDigits k).length := by
      cases hx : natDigits k with
      | nil => exact absurd hx (natDigits_ne_nil k)
      | cons a as => simp
    have heq := eq_of_containsSub_of_length hc (by rw [tagStr_length, tagStr_length]; omega)
    have := tagStr_inj heq
    omega

theorem expectedEntries_length (start : Nat) (us : List (List Char)) :
    (expectedEntries start us).length = us.length := by
  induction us generalizing start with
  | nil => rfl
  | cons u us ih => simp [expectedEntries, ih]

theorem expectedEntries_append (start : Nat) (us : List (List Char)) (v : List Char) :
    expectedEntries start (us ++ [v]) =
      expectedEntries start us ++ [(tagStr (start + us.length), ⟨v, mkTitle [], []⟩)] := by
  induction us generalizing start with
  | nil => simp [expectedEntries]
  | cons u us ih =>
    have hstep : expectedEntries start ((u :: us) ++ [v]) =
        (tagStr start, ⟨u, mkTitle [], []⟩) :: expectedEntries (start + 1) (us ++ [v]) := rfl
    rw [hstep, ih (start + 1)]
    have harith : start + 1 + us.length = start + (u :: us).length := by
      simp only [List.length_cons]
      omega
    rw [harith]
    rfl

theorem expectedUrlTag_append (start : Nat) (us : List (List Char)) (v : List Char) :
    expectedUrlTag start (us ++ [v]) =
      expectedUrlTag start us ++ [(v, tagStr (start + us.length))] := by
  induction us generalizing start with
  | nil => simp [expectedUrlTag]
  | cons u us ih =>
    have hstep : expectedUrlTag start ((u :: us) ++ [v]) =
        (u, tagStr start) :: expectedUrlTag (start + 1) (us ++ [v]) := rfl
    rw [hstep, ih (start + 1)]
    have harith : start + 1 + us.length = start + (u :: us).length := by
      simp only [List.length_cons]
      omega
    rw [harith]
    rfl

theorem expectedEntries_tags {start : Nat} {us : List (List Char)}
    {p : List Char × SourceItem} (hp : p ∈ expectedEntries start us) :
    ∃ k, start ≤ k ∧ p.1 = tagStr k := by
  induction us generalizing start with
  | nil => simp [expectedEntries] at hp
  | cons u us ih =>
    simp only [expectedEntries, List.mem_cons] at hp
    rcases hp with hp | hp
    · exact ⟨start, le_rfl, by rw [hp]⟩
    · obtain ⟨k, hk, he⟩ := ih hp
      exact ⟨k, by omega, he⟩

theorem alookup_expectedUrlTag_none {start : Nat} {us : List (List Char)} {v : List Char}
    (hv : v ∉ us) : alookup v (expectedUrlTag start us) = none := by
  induction us generalizing start with
  | nil => rfl
  | cons u us ih =>
    simp only [expectedUrlTag, alookup]
    rw [if_neg (by intro h; exact hv (by simp [← h]))]
    exact ih (by intro h; exact hv (by simp [h]))

theorem aerase_expectedUrlTag {k : List Char} {start : Nat} {us : List (List Char)}
    (h : k ∉ us) : aerase k (expectedUrlTag start us) = expectedUrlTag start us := by
  induction us generalizing start with
  | nil => rfl
  | cons u us ih =>
    simp only [expectedUrlTag, aerase]
    rw [if_neg (by intro hx; exact h (by simp [hx]))]
    rw [ih (by intro hx; exact h (by simp [hx]))]

theorem regAllU_formula : ∀ us : List (List Char), us.length ≤ MAX_SIZE →
    us.Pairwise (· ≠ ·) → (∀ u ∈ us, pyStrip u = u ∧ u ≠ []) →
    regAllU us = ⟨expectedEntries 1 us, expectedUrlTag 1 us, us.length⟩ := by
  intro us
  induction us using List.reverseRecOn with
  | nil => intro _ _ _; rfl
  | append_singleton us v ih =>
    intro hlen hdis hok
    have hlen' : us.length ≤ MAX_SIZE := by
      simp only [List.length_append, List.length_cons, List.length_nil] at hlen
      omega
    have hdis' : us.Pairwise (· ≠ ·) := (List.pairwise_append.mp hdis).1
    have hvnot : v ∉ us := by
      intro hv
      exact (List.pairwise_append.mp hdis).2.2 v hv v (by simp) rfl
    have hok' : ∀ u ∈ us, pyStrip u = u ∧ u ≠ [] := fun u hu => hok u (by simp [hu])
    have hv := hok v (by simp)
    have hne : ¬(pyStrip v = []) := by rw [hv.1]; exact hv.2
    have hstep : regAllU (us ++ [v]) = ((regAllU us).register v [] []).2 := by
      unfold regAllU
      rw [List.foldl_append]
      rfl
    rw [hstep, ih hlen' hdis' hok']
    have halk : alookup (pyStrip v)
        (SourceRegistry.mk (expectedEntries 1 us) (expectedUrlTag 1 us) us.length).url_to_tag
        = none := by
      rw [hv.1]
      exact alookup_expectedUrlTag_none hvnot
    have hcap : ¬(MAX_SIZE ≤ (SourceRegistry.mk (expectedEntries 1 us)
        (expectedUrlTag 1 us) us.length).sources.length) := by
      simp only [expectedEntries_length]
      simp only [List.length_append, List.length_cons, List.length_nil] at hlen
      omega
    simp only [SourceRegistry.register, hne, halk, hcap, if_false]
    rw [expectedEntries_append, expectedUrlTag_append, hv.1]
    simp only [List.length_append, List.length_cons, List.length_nil]
    have harith : 1 + us.length = us.length + 1 := by omega
    rw [harith]

/-- Claim C4 (confirmed): starting from an empty registry, registering
`MAX_SIZE + 1` distinct non-empty (whitespace-trimmed) URLs evicts exactly the
first-registered URL and no other — the live entries are precisely URLs
`2 .. MAX_SIZE+1` in insertion order under tags `[SOURCE_2] .. [SOURCE_501]` —
and the evicted tag `[SOURCE_1]` is no longer resolvable: substituting a text
consisting of that tag strips it to the empty text instead of rendering a
link. -/
theorem claim_c4 (us : List (List Char)) (v : List Char)
    (hlen : us.length = MAX_SIZE)
    (hdis : (us ++ [v]).Pairwise (· ≠ ·))
    (hok : ∀ u ∈ us ++ [v], pyStrip u = u ∧ u ≠ []) :
    regAllU (us ++ [v]) =
      ⟨expectedEntries 2 (us.drop 1 ++ [v]), expectedUrlTag 2 (us.drop 1 ++ [v]),
        MAX_SIZE + 1⟩ ∧
    (regAllU (us ++ [v])).substitute (tagStr 1) = [] := by
  have hdis' : us.Pairwise (· ≠ ·) := (List.pairwise_append.mp hdis).1
  have hvnot : v ∉ us := by
    intro hv
    exact (List.pairwise_append.mp hdis).2.2 v hv v (by simp) rfl
  have hok' : ∀ u ∈ us, pyStrip u = u ∧ u ≠ [] := fun u hu => hok u (by simp [hu])
  have hv := hok v (by simp)
  have hne : ¬(pyStrip v = []) := by rw [hv.1]; exact hv.2
  cases hus : us with
  | nil => rw [hus] at hlen; simp [MAX_SIZE] at hlen
  | cons u0 ut =>
    subst hus
    have hform := regAllU_formula (u0 :: ut) (by omega) hdis' hok'
    have hstep : regAllU ((u0 :: ut) ++ [v]) = ((regAllU (u0 :: ut)).register v [] []).2 := by
      unfold regAllU
      rw [List.foldl_append]
      rfl
    have hu0not : u0 ∉ ut := by
      have := List.pairwise_cons.mp hdis'
      intro hx
      exact this.1 u0 hx rfl
    have hsrc : expectedEntries 1 (u0 :: ut) =
        (tagStr 1, ⟨u0, mkTitle [], []⟩) :: expectedEntries 2 ut := rfl
    have hurl : expectedUrlTag 1 (u0 :: ut) =
        (u0, tagStr 1) :: expectedUrlTag 2 ut := rfl
    have halk2 : alookup v ((u0, tagStr 1) :: expectedUrlTag 2 ut) = none :=
      @alookup_expectedUrlTag_none 1 (u0 :: ut) v hvnot
    have hcap2 : MAX_SIZE ≤
        ((tagStr 1, (⟨u0, mkTitle [], []⟩ : SourceItem)) :: expectedEntries 2 ut).length := by
      rw [← hsrc, expectedEntries_length]
      omega
    have herase : aerase u0 ((u0, tagStr 1) :: expectedUrlTag 2 ut) = expectedUrlTag 2 ut := by
      simp only [aerase, if_pos rfl]
      exact aerase_expectedUrlTag hu0not
    have hdrop : (u0 :: ut).drop 1 = ut := rfl
    have hcnt : (u0 :: ut).length = MAX_SIZE := hlen
    have harith : 2 + ut.length = MAX_SIZE + 1 := by
      simp only [List.length_cons] at hlen
      omega
    have hmain : regAllU ((u0 :: ut) ++ [v]) =
        ⟨expectedEntries 2 ((u0 :: ut).drop 1 ++ [v]),
          expectedUrlTag 2 ((u0 :: ut).drop 1 ++ [v]), MAX_SIZE + 1⟩ := by
      rw [hstep, hform]
      simp only [SourceRegistry.register, hne, hv.2, halk2, hcap2, hsrc, hurl, herase, hv.1,
        hcnt, hdrop, if_true, if_false]
      rw [expectedEntries_append, expectedUrlTag_append, harith]
    refine ⟨hmain, ?_⟩
    rw [hmain]
    have hprim : primaryPass (expectedEntries 2 ((u0 :: ut).drop 1 ++ [v])) (tagStr 1)
        = tagStr 1 := by
      apply primaryPass_eq_self
      intro p hp
      obtain ⟨k, hk, he⟩ := expectedEntries_tags hp
      rw [he]
      exact ⟨tagStr_ne_nil k, containsSub_tagStr_one hk⟩
    have hfall : fallbackPass (expectedEntries 2 ((u0 :: ut).drop 1 ++ [v])) (tagStr 1)
        = tagStr 1 := fallbackPass_eq_self (by decide)
    simp only [SourceRegistry.substitute]
    rw [if_neg (by decide : ¬(tagStr 1 = []))]
    rw [show expand_compound_tags (tagStr 1) = tagStr 1 by decide]
    rw [show normalize_bare_tags (tagStr 1) = tagStr 1 by decide]
    rw [hprim, hfall]
    decide

/-- Witness for `claim_c4`: 501 distinct single-to-three-digit URLs. -/
theorem claim_c4_wit :
    regAllU ((List.range MAX_SIZE).map natDigits ++ [natDigits MAX_SIZE]) =
      ⟨expectedEntries 2 (((List.range MAX_SIZE).map natDigits).drop 1 ++ [natDigits MAX_SIZE]),
        expectedUrlTag 2 (((List.range MAX_SIZE).map natDigits).drop 1 ++ [natDigits MAX_SIZE]),
        MAX_SIZE + 1⟩ ∧
    (regAllU ((List.range MAX_SIZE).map natDigits ++ [natDigits MAX_SIZE])).substitute (tagStr 1)
      = [] := by
  have heq : (List.range MAX_SIZE).map natDigits ++ [natDigits MAX_SIZE]
      = (List.range (MAX_SIZE + 1)).map natDigits := by
    rw [List.range_succ]
    simp
  apply claim_c4
  · simp
  · rw [heq]
    exact List.Nodup.map (fun a b h => natDigits_inj h) (List.nodup_range _)
  · intro u hu
    rw [heq] at hu
    obtain ⟨n, hn, hun⟩ := List.mem_map.mp hu
    rw [← hun]
    exact ⟨pyStrip_natDigits n, natDigits_ne_nil n⟩

/-! ### Substitution idempotence (claim C5) -/

theorem parseTagBody_isPre {l b r : List Char} (h : parseTagBody l = some (b, r)) :
    isPre srcLit l = true := by
  unfold parseTagBody at h
  split at h
  · next hp => exact hp
  · simp at h

theorem matchCompound_srcLit {l : List Char} {ts : List (List Char)} {rest : List Char}
    (h : matchCompound l = some (ts, rest)) : containsSub srcLit l = true := by
  cases l with
  | nil => simp [matchCompound] at h
  | cons c cs =>
    simp only [matchCompound] at h
    split at h
    · cases hp : parseTagBody cs with
      | none => rw [hp] at h; simp at h
      | some pr =>
        exact containsSub_cons_of_tail (containsSub_of_isPre (parseTagBody_isPre hp))
    · simp at h

theorem matchBare_srcLit {l : List Char} {b r : List Char}
    (h : matchBare l = some (b, r)) : containsSub srcLit l = true := by
  unfold matchBare at h
  cases hp : parseTagBody l with
  | none => rw [hp] at h; simp at h
  | some pr => exact containsSub_of_isPre (parseTagBody_isPre hp)

theorem matchStrip_srcLit {l r : List Char} (h : matchStrip l = some r) :
    containsSub srcLit l = true := by
  cases l with
  | nil => simp [matchStrip] at h
  | cons c cs =>
    simp only [matchStrip] at h
    split at h
    · cases hp : parseTagBody cs with
      | none => rw [hp] at h; simp at h
      | some pr =>
        exact containsSub_cons_of_tail (containsSub_of_isPre (parseTagBody_isPre hp))
    · simp at h

theorem expandCompoundAux_id {fuel : Nat} : ∀ l, containsSub srcLit l = false →
    expandCompoundAux fuel l = l := by
  induction fuel with
  | zero => intro l h; rfl
  | succ fuel ih =>
    intro l h
    cases l with
    | nil => rfl
    | cons c cs =>
      simp only [expandCompoundAux]
      cases hm : matchCompound (c :: cs) with
      | some pr =>
        obtain ⟨ts, rest⟩ := pr
        rw [matchCompound_srcLit hm] at h
        simp at h
      | none =>
        simp only [containsSub, Bool.or_eq_false_iff] at h
        rw [ih cs h.2]

theorem nbAux_id {fuel : Nat} : ∀ l prev, containsSub srcLit l = false →
    nbAux fuel prev l = l := by
  induction fuel with
  | zero => intro l prev h; rfl
  | succ fuel ih =>
    intro l prev h
    cases l with
    | nil => rfl
    | cons c cs =>
      simp only [nbAux]
      have hm : matchBare (c :: cs) = none := by
        cases hb : matchBare (c :: cs) with
        | none => rfl
        | some pr =>
          obtain ⟨b, r⟩ := pr
          rw [matchBare_srcLit hb] at h
          simp at h
      rw [show (if prev = some '[' then none else matchBare (c :: cs)) = none by
        split
        · rfl
        · exact hm]
      simp only [containsSub, Bool.or_eq_false_iff] at h
      rw [ih cs (some c) h.2]

theorem stripTagsAux_id {fuel : Nat} : ∀ l, containsSub srcLit l = false →
    stripTagsAux fuel l = l := by
  induction fuel with
  | zero => intro l h; rfl
  | succ fuel ih =>
    intro l h
    cases l with
    | nil => rfl
    | cons c cs =>
      simp only [stripTagsAux]
      cases hm : matchStrip (c :: cs) with
      | some rest =>
        rw [matchStrip_srcLit hm] at h
        simp at h
      | none =>
        simp only [containsSub, Bool.or_eq_false_iff] at h
        rw [ih cs h.2]

theorem containsSub_srcLit_of_tagStr {k : Nat} {z : List Char}
    (h : containsSub (tagStr k) z = true) : containsSub srcLit z = true := by
  have hshape : tagStr k = ['['] ++ (srcLit ++ (natDigits k ++ [']'])) := rfl
  rw [hshape] at h
  exact containsSub_of_within h

theorem register_tags {st : SourceRegistry} (h : ∀ p ∈ st.sources, ∃ k, p.1 = tagStr k)
    (u t o : List Char) : ∀ p ∈ (st.register u t o).2.sources, ∃ k, p.1 = tagStr k := by
  intro p hp
  unfold SourceRegistry.register at hp
  split at hp
  · exact h p hp
  · cases ha : alookup (pyStrip u) st.url_to_tag with
    | some tg =>
      simp only [ha] at hp
      exact h p hp
    | none =>
      simp only [ha, List.mem_append, List.mem_singleton] at hp
      rcases hp with hp | hp
      · revert hp
        split
        · split
          · exact fun hp => h p hp
          · next heq =>
            intro hp
            refine h p ?_
            rw [heq]
            exact List.mem_cons_of_mem _ hp
        · exact fun hp => h p hp
      · rw [hp]
        exact ⟨st.counter + 1, rfl⟩

theorem reachable_tagShaped {st : SourceRegistry} (h : Reachable st) :
    ∀ p ∈ st.sources, ∃ k, p.1 = tagStr k := by
  obtain ⟨ins, rfl⟩ := h
  induction ins using List.reverseRecOn with
  | nil => intro p hp; simp [runReg, SourceRegistry.init] at hp
  | append_singleton ins i ih =>
    have hstep : runReg SourceRegistry.init (ins ++ [i])
        = regStep (runReg SourceRegistry.init ins) i := by
      unfold runReg
      rw [List.foldl_append]
      rfl
    rw [hstep]
    exact register_tags ih i.url i.title i.source_name

theorem fallbackFold_eq_self2 {entries : List (List Char × SourceItem)} {text : List Char}
    (h : ∀ p ∈ entries, p.2.source_name ≠ [] →
      containsSub (parenPat p.2.source_name) text = false) :
    ∀ seen, (entries.foldl fallbackStep (seen, text)).2 = text := by
  induction entries with
  | nil => intro seen; rfl
  | cons e es ih =>
    intro seen
    simp only [List.foldl_cons]
    by_cases hskip : e.2.source_name = [] ∨ e.2.source_name ∈ seen
    · rw [show fallbackStep (seen, text) e = (seen, text) by simp [fallbackStep, hskip]]
      exact ih (fun p hp => h p (List.mem_cons_of_mem _ hp)) seen
    · have hname : e.2.source_name ≠ [] := fun hx => hskip (Or.inl hx)
      have hpat := h e (List.mem_cons_self e es) hname
      rw [show fallbackStep (seen, text) e = (e.2.source_name :: seen, text) by
        simp [fallbackStep, hskip, hpat]]
      exact ih (fun p hp => h p (List.mem_cons_of_mem _ hp)) _

theorem substitute_fix (st : SourceRegistry) (z : List Char)
    (hts : ∀ p ∈ st.sources, ∃ k, p.1 = tagStr k)
    (h1 : containsSub srcLit z = false)
    (h2 : ∀ p ∈ st.sources, p.2.source_name ≠ [] →
      containsSub (parenPat p.2.source_name) z = false) :
    st.substitute z = z := by
  simp only [SourceRegistry.substitute]
  split
  · rfl
  · rw [show expand_compound_tags z = z from expandCompoundAux_id z h1]
    rw [show normalize_bare_tags z = z from nbAux_id z none h1]
    rw [primaryPass_eq_self ?hpr]
    case hpr =>
      intro p hp
      obtain ⟨k, hk⟩ := hts p hp
      rw [hk]
      refine ⟨tagStr_ne_nil k, ?_⟩
      cases hc : containsSub (tagStr k) z
      · rfl
      · rw [containsSub_srcLit_of_tagStr hc] at h1
        simp at h1
    rw [show fallbackPass st.sources z = z from fallbackFold_eq_self2 h2 []]
    exact stripTagsAux_id z h1

/-- Claim C5 (corrected): `substitute` is idempotent on clean input only under
side conditions the claim omits: the one-pass output must itself be free of
`SOURCE_` runs and of parenthesized registered origin names.  Stored URLs or
titles containing tag-like text break idempotence (see the counterexample),
because the second pass normalizes and strips text the first pass inserted
from the registry. -/
theorem claim_c5 (st : SourceRegistry) (x : List Char) (hre : Reachable st)
    (h1 : containsSub srcLit (st.substitute x) = false)
    (h2 : ∀ p ∈ st.sources, p.2.source_name ≠ [] →
      containsSub (parenPat p.2.source_name) (st.substitute x) = false) :
    st.substitute (st.substitute x) = st.substitute x :=
  substitute_fix st (st.substitute x) (reachable_tagShaped hre) h1 h2

/-- Claim C5 counterexample: register the URL `http://e/SOURCE_2` (a reachable,
clean-input scenario: the text consists of the single registered tag
`[SOURCE_1]`).  The first substitution yields `[T](http://e/SOURCE_2)`; the
second wraps and strips the `SOURCE_2` inside the URL, yielding
`[T](http://e/)` — so `substitute (substitute x) ≠ substitute x`. -/
theorem claim_c5_cex :
    ((SourceRegistry.init.register "http://e/SOURCE_2".toList "T".toList []).2.substitute
        ((SourceRegistry.init.register "http://e/SOURCE_2".toList "T".toList []).2.substitute
          (tagStr 1))) ≠
      (SourceRegistry.init.register "http://e/SOURCE_2".toList "T".toList []).2.substitute
        (tagStr 1) := by decide

/-- Witness for `claim_c5` at a concrete registry and clean text. -/
theorem claim_c5_wit :
    ((SourceRegistry.init.register "http://a".toList "T".toList "N".toList).2.substitute
        ((SourceRegistry.init.register "http://a".toList "T".toList "N".toList).2.substitute
          "[SOURCE_1] ok".toList)) =
      (SourceRegistry.init.register "http://a".toList "T".toList "N".toList).2.substitute
        "[SOURCE_1] ok".toList :=
  claim_c5 (SourceRegistry.init.register "http://a".toList "T".toList "N".toList).2
    "[SOURCE_1] ok".toList
    ⟨[⟨"http://a".toList, "T".toList, "N".toList⟩], rfl⟩ (by decide) (by decide)

/-! ### Origin-name fallback pass (claim C6) -/

theorem fallbackFold_dedup (entries : List (List Char × SourceItem)) :
    ∀ seen text, (entries.foldl fallbackStep (seen, text)).2 =
      (dedupByName seen entries).foldl
        (fun t e => pyReplace (parenPat e.2.source_name) (renderLink e.2) t) text := by
  induction entries with
  | nil => intro seen text; rfl
  | cons e es ih =>
    intro seen text
    simp only [List.foldl_cons, dedupByName]
    by_cases hskip : e.2.source_name = [] ∨ e.2.source_name ∈ seen
    · rw [if_pos hskip,
        show fallbackStep (seen, text) e = (seen, text) by simp [fallbackStep, hskip]]
      exact ih seen text
    · rw [if_neg hskip]
      simp only [List.foldl_cons]
      by_cases hpat : containsSub (parenPat e.2.source_name) text = true
      · rw [show fallbackStep (seen, text) e = (e.2.source_name :: seen,
            pyReplace (parenPat e.2.source_name) (renderLink e.2) text) by
          simp [fallbackStep, hskip, hpat]]
        exact ih _ _
      · have hpat' : containsSub (parenPat e.2.source_name) text = false := by
          cases hx : containsSub (parenPat e.2.source_name) text
          · rfl
          · exact absurd hx hpat
        rw [show fallbackStep (seen, text) e = (e.2.source_name :: seen, text) by
          simp [fallbackStep, hskip, hpat']]
        rw [pyReplace_eq_self (by simp [parenPat]) hpat']
        exact ih _ _

/-- Claim C6 (confirmed): the fallback pass of `substitute` is exactly one
replacement pass per distinct nonempty origin name — registry entries
deduplicated by origin name keeping the first-registered entry — where each
pass replaces the literal parenthesized origin name `(name)` by the winning
entry's rendered markdown link. -/
theorem claim_c6 (entries : List (List Char × SourceItem)) (text : List Char) :
    fallbackPass entries text = fallbackSpec entries text :=
  fallbackFold_dedup entries [] text

/-! ### History compression shape (claim C7) -/

theorem hlookup_hset (k : Int) (v : List ModelMessage) (l : List (Int × List ModelMessage)) :
    hlookup k (hset k v l) = some v := by
  induction l with
  | nil => simp [hset, hlookup]
  | cons p ps ih =>
    obtain ⟨k2, v2⟩ := p
    by_cases hk : k2 = k
    · simp [hset, hk, hlookup]
    · simp [hset, hk, hlookup, ih]

theorem compress_eq (msgs : List ModelMessage) (h0 : msgs ≠ [])
    (hturns : 2 ≤ (splitIntoTurns msgs).length)
    (hfit : (((splitIntoTurns msgs).dropLast.map compressTurn).flatten ++
      (splitIntoTurns msgs).getLastD []).length ≤ MAX_HISTORY) :
    compress msgs = ((splitIntoTurns msgs).dropLast.map compressTurn).flatten ++
      (splitIntoTurns msgs).getLastD [] := by
  simp only [compress]
  rw [if_neg h0]
  rw [if_neg (show ¬(splitIntoTurns msgs).length ≤ 1 by omega)]
  rw [if_neg (show ¬MAX_HISTORY < (((splitIntoTurns msgs).dropLast.map compressTurn).flatten ++
    (splitIntoTurns msgs).getLastD []).length by omega)]

theorem splitFold_heads (msgs : List ModelMessage) :
    ∀ turns current,
      (∀ t ∈ turns, ∃ qs, t.headD (ModelMessage.response []) = .request qs ∧
        qs.any isUserPrompt = true) →
      current ≠ [] →
      (∃ qs, current.headD (ModelMessage.response []) = .request qs ∧
        qs.any isUserPrompt = true) →
      (∀ t ∈ (msgs.foldl splitStep (turns, current)).1,
          ∃ qs, t.headD (ModelMessage.response []) = .request qs ∧
            qs.any isUserPrompt = true) ∧
        (msgs.foldl splitStep (turns, current)).2 ≠ [] ∧
        (∃ qs, (msgs.foldl splitStep (turns, current)).2.headD (ModelMessage.response [])
          = .request qs ∧ qs.any isUserPrompt = true) := by
  induction msgs with
  | nil => intro turns current h1 h2 h3; exact ⟨h1, h2, h3⟩
  | cons m ms ih =>
    intro turns current h1 h2 h3
    simp only [List.foldl_cons]
    by_cases hm : isUserRequest m = true
    · have hstep : splitStep (turns, current) m = (turns ++ [current], [m]) := by
        simp [splitStep, hm, h2]
      rw [hstep]
      refine ih _ _ ?_ (by simp) ?_
      · intro t ht
        rcases List.mem_append.mp ht with ht | ht
        · exact h1 t ht
        · rw [List.mem_singleton.mp ht]
          exact h3
      · cases m with
        | request qs => exact ⟨qs, rfl, by simpa [isUserRequest] using hm⟩
        | response _ => simp [isUserRequest] at hm
    · have hm' : isUserRequest m = false := by
        cases hx : isUserRequest m
        · rfl
        · exact absurd hx hm
      have hstep : splitStep (turns, current) m = (turns, current ++ [m]) := by
        simp [splitStep, hm']
      rw [hstep]
      refine ih _ _ h1 (by simp) ?_
      obtain ⟨qs, hq1, hq2⟩ := h3
      refine ⟨qs, ?_, hq2⟩
      cases current with
      | nil => exact absurd rfl h2
      | cons c cs => simpa using hq1

theorem splitIntoTurns_heads (ps : List ReqPart) (rest : List ModelMessage)
    (hup : ps.any isUserPrompt = true) :
    ∀ t ∈ splitIntoTurns (ModelMessage.request ps :: rest),
      ∃ qs, t.headD (ModelMessage.response []) = .request qs ∧ qs.any isUserPrompt = true := by
  intro t ht
  simp only [splitIntoTurns, List.foldl_cons] at ht
  rw [show splitStep ([], []) (ModelMessage.request ps) = ([], [ModelMessage.request ps]) by
    simp [splitStep, isUserRequest, hup]] at ht
  have hfold := splitFold_heads rest [] [ModelMessage.request ps] (by simp) (by simp)
    ⟨ps, rfl, hup⟩
  rw [if_neg hfold.2.1] at ht
  rcases List.mem_append.mp ht with ht | ht
  · exact hfold.1 t ht
  · rw [List.mem_singleton.mp ht]
    exact hfold.2.2

theorem compressTurn_some {turn : List ModelMessage} {a : List Char} (hne : turn ≠ [])
    (h : extractAnswer turn = some a) :
    compressTurn turn = [turn.headD (ModelMessage.response []), .response [.textPart a]] := by
  unfold compressTurn
  rw [h]
  cases turn with
  | nil => exact absurd rfl hne
  | cons t0 ts => rfl

theorem compressTurn_none {turn : List ModelMessage} (h : extractAnswer turn = none) :
    compressTurn turn = [] := by
  unfold compressTurn
  rw [h]

/-- Claim C7 (corrected): the claimed shape — every turn except the last
stored as exactly the pair of its leading user-request message and one
synthesized answer record holding the last non-empty generated text found
scanning the turn backwards, answerless turns dropped, the final turn kept
uncompressed in full — holds only when the compressed total fits within
`MAX_HISTORY` (30); otherwise `_compress` trims `messages[-MAX_HISTORY:]`
from the oldest end, deleting or even splitting stored pairs (see the
counterexample). -/
theorem claim_c7 (msgs : List ModelMessage) (ps : List ReqPart) (rest : List ModelMessage)
    (hmsgs : msgs = ModelMessage.request ps :: rest)
    (hup : ps.any isUserPrompt = true)
    (hturns : 2 ≤ (splitIntoTurns msgs).length)
    (hfit : (((splitIntoTurns msgs).dropLast.map compressTurn).flatten ++
      (splitIntoTurns msgs).getLastD []).length ≤ MAX_HISTORY) :
    (∀ (m : ChatHistoryManager) (cid : Int),
      (m.update cid msgs).get cid =
        ((splitIntoTurns msgs).dropLast.map compressTurn).flatten ++
          (splitIntoTurns msgs).getLastD []) ∧
    (∀ t ∈ (splitIntoTurns msgs).dropLast,
      (∃ qs, t.headD (ModelMessage.response []) = .request qs ∧ qs.any isUserPrompt = true) ∧
      (∀ a, extractAnswer t = some a →
        compressTurn t = [t.headD (ModelMessage.response []), .response [.textPart a]]) ∧
      (extractAnswer t = none → compressTurn t = [])) := by
  have h0 : msgs ≠ [] := by rw [hmsgs]; simp
  have hceq := compress_eq msgs h0 hturns hfit
  constructor
  · intro m cid
    show (hlookup cid (hset cid (compress msgs) m.histories)).getD [] = _
    rw [hlookup_hset]
    simpa using hceq
  · intro t ht
    have ht' : t ∈ splitIntoTurns msgs := (List.dropLast_sublist _).subset ht
    rw [hmsgs] at ht'
    have hhead := splitIntoTurns_heads ps rest hup t ht'
    have hne : t ≠ [] := by
      obtain ⟨qs, hq, _⟩ := hhead
      intro hnil
      rw [hnil] at hq
      simp at hq
    exact ⟨hhead, fun a ha => compressTurn_some hne ha, fun ha => compressTurn_none ha⟩

/-- Claim C7 counterexample: on `cexMsgs` (15 completed turns plus a final
three-record turn) the compressed shape demanded by the claim has 33 records,
but `update` trims to the newest `MAX_HISTORY = 30`, deleting the first pair
entirely and the second pair's user-request record — the stored history is
not of the claimed shape. -/
theorem claim_c7_cex :
    compress cexMsgs ≠ ((splitIntoTurns cexMsgs).dropLast.map compressTurn).flatten ++
      (splitIntoTurns cexMsgs).getLastD [] := by decide

/-- Witness for `claim_c7` at a concrete two-turn message list. -/
theorem claim_c7_wit :
    ChatHistoryManager.get
      (ChatHistoryManager.update (ChatHistoryManager.mk []) 7
        [ModelMessage.request [ReqPart.userPrompt "q1".toList],
         ModelMessage.response [RespPart.textPart "a1".toList],
         ModelMessage.request [ReqPart.userPrompt "q2".toList],
         ModelMessage.response [RespPart.textPart "a2".toList]]) 7 =
      ((splitIntoTurns
          [ModelMessage.request [ReqPart.userPrompt "q1".toList],
           ModelMessage.response [RespPart.textPart "a1".toList],
           ModelMessage.request [ReqPart.userPrompt "q2".toList],
           ModelMessage.response [RespPart.textPart "a2".toList]]).dropLast.map
        compressTurn).flatten ++
        (splitIntoTurns
          [ModelMessage.request [ReqPart.userPrompt "q1".toList],
           ModelMessage.response [RespPart.textPart "a1".toList],
           ModelMessage.request [ReqPart.userPrompt "q2".toList],
           ModelMessage.response [RespPart.textPart "a2".toList]]).getLastD [] :=
  (claim_c7 _ [ReqPart.userPrompt "q1".toList]
      [ModelMessage.response [RespPart.textPart "a1".toList],
       ModelMessage.request [ReqPart.userPrompt "q2".toList],
       ModelMessage.response [RespPart.textPart "a2".toList]]
      rfl (by decide) (by decide) (by decide)).1 (ChatHistoryManager.mk []) 7

/-! ### Transport sanitization and retry (claim C8) -/

/-- Claim C8 (corrected): request bodies without a recognizable message list,
or that fail to parse, pass through unchanged; bodies with a message list and
no null-or-missing content pass through unchanged; a body containing a
message whose content is null — or, beyond the claim's wording, merely absent,
since `dict.get` treats both alike — is re-sent with those contents rewritten
to the empty string and the `content-length` recomputed from the re-serialized
body; the sanitized request is retried on HTTP 500, a non-500 first answer is
returned with 0 retries, and after two 500s the third attempt's response is
returned regardless of status with exactly 2 recorded retries. -/
theorem claim_c8 :
    (∀ req : PyRequest, req.content = none → sanitizeRequest req = req) ∧
    (∀ (req : PyRequest) (fields : List (List Char × Json)),
      req.content = some (Json.obj fields) → jlookup "messages".toList fields = none →
      sanitizeRequest req = req) ∧
    (∀ (req : PyRequest) (fields : List (List Char × Json)) (msgs : List Json),
      req.content = some (Json.obj fields) →
      jlookup "messages".toList fields = some (Json.arr msgs) →
      msgs.all isJsonObj = true →
      msgs.any contentNullOrMissing = true →
      sanitizeRequest req =
        fix_request req (Json.obj (jset "messages".toList (Json.arr (msgs.map fixMsg)) fields))) ∧
    (∀ (req : PyRequest) (fields : List (List Char × Json)) (msgs : List Json),
      req.content = some (Json.obj fields) →
      jlookup "messages".toList fields = some (Json.arr msgs) →
      msgs.any contentNullOrMissing = false →
      sanitizeRequest req = req) ∧
    (∀ (backend : Nat → PyRequest → PyResponse) (req : PyRequest),
      (backend 1 (sanitizeRequest req)).status ≠ 500 →
      handle_async_request backend req = (backend 1 (sanitizeRequest req), 0)) ∧
    (∀ (backend : Nat → PyRequest → PyResponse) (req : PyRequest),
      (backend 1 (sanitizeRequest req)).status = 500 →
      (backend 2 (sanitizeRequest req)).status = 500 →
      handle_async_request backend req = (backend 3 (sanitizeRequest req), 2)) := by
  refine ⟨?_, ?_, ?_, ?_, ?_, ?_⟩
  · intro req h
    simp only [sanitizeRequest, h]
  · intro req fields h1 h2
    simp only [sanitizeRequest, h1, h2]
  · intro req fields msgs h1 h2 h3 h4
    simp only [sanitizeRequest, h1, h2, h3, h4, if_true]
  · intro req fields msgs h1 h2 h4
    simp only [sanitizeRequest, h1, h2, h4, Bool.false_eq_true, if_false]
    split <;> rfl
  · intro backend req h
    have hr : List.range' 1 MAX_RETRIES = [1, 2, 3] := rfl
    simp only [handle_async_request, hr, retryLoop]
    rw [if_pos (Or.inl h)]
  · intro backend req h1 h2
    have hr : List.range' 1 MAX_RETRIES = [1, 2, 3] := rfl
    simp only [handle_async_request, hr, retryLoop]
    rw [if_neg (by simp [h1, MAX_RETRIES])]
    rw [if_neg (by simp [h2, MAX_RETRIES])]
    have hcond : (backend (1 + 1 + 1) (sanitizeRequest req)).status ≠ 500 ∨
        1 + 1 + 1 = MAX_RETRIES := Or.inr (by decide)
    rw [if_pos hcond]

/-- Claim C8 counterexample: the claim says a request with an explicit-null
message content is re-sent "otherwise unchanged", but `msg.get('content') is
None` also fires for a message with no `content` key: sanitizing `cexReq`
grows its second message from one field to two (a `content` key is added),
so the request is not otherwise unchanged. -/
theorem claim_c8_cex :
    msgFieldCounts cexReq = some [2, 1] ∧
    msgFieldCounts (sanitizeRequest cexReq) = some [2, 2] := by
  constructor <;> decide

/-- Witness for `claim_c8`: the null-content rewrite on `witReq` and the
500/500/200 retry scenario on `witBackend`. -/
theorem claim_c8_wit :
    sanitizeRequest witReq = fix_request witReq (Json.obj (jset "messages".toList
      (Json.arr ([Json.obj [("content".toList, Json.null)]].map fixMsg))
      [("messages".toList, Json.arr [Json.obj [("content".toList, Json.null)]])])) ∧
    handle_async_request witBackend witReq = (witBackend 3 (sanitizeRequest witReq), 2) :=
  ⟨claim_c8.2.2.1 witReq _ _ rfl rfl rfl rfl,
   claim_c8.2.2.2.2.2 witBackend witReq rfl rfl⟩

/-! ### Bare-tag deletion in prose (claim C10) -/

theorem isPre_srcLit_head {x : Char} {l : List Char} (hx : x ≠ 'S') :
    isPre srcLit (x :: l) = false := by
  cases hp : isPre srcLit (x :: l)
  · rfl
  · exfalso
    have hsrc : srcLit = 'S' :: "OURCE_".toList := rfl
    rw [hsrc] at hp
    exact hx (isPre_cons hp).1.symm

theorem parseTagBody_head_ne {x : Char} {l : List Char} (hx : x ≠ 'S') :
    parseTagBody (x :: l) = none := by
  simp [parseTagBody, isPre_srcLit_head hx]

theorem matchBare_head_ne {x : Char} {l : List Char} (hx : x ≠ 'S') :
    matchBare (x :: l) = none := by
  simp [matchBare, parseTagBody_head_ne hx]

theorem matchStrip_head_ne {x : Char} {l : List Char} (hx : x ≠ '[') :
    matchStrip (x :: l) = none := by
  simp [matchStrip, hx]

theorem matchCompound_head {l : List Char} {ts : List (List Char)} {rest : List Char}
    (h : matchCompound l = some (ts, rest)) : ∃ cs, l = '[' :: cs := by
  cases l with
  | nil => simp [matchCompound] at h
  | cons c cs =>
    simp only [matchCompound] at h
    split at h
    · next hc => exact ⟨cs, by rw [hc]⟩
    · simp at h

theorem expandCompoundAux_id_nobracket {fuel : Nat} : ∀ l, '[' ∉ l →
    expandCompoundAux fuel l = l := by
  induction fuel with
  | zero => intro l h; rfl
  | succ fuel ih =>
    intro l h
    cases l with
    | nil => rfl
    | cons c cs =>
      simp only [expandCompoundAux]
      cases hm : matchCompound (c :: cs) with
      | some pr =>
        obtain ⟨ts, rest⟩ := pr
        obtain ⟨cs2, hc⟩ := matchCompound_head hm
        rw [List.cons.injEq] at hc
        exact absurd (by rw [hc.1]; exact List.mem_cons_self _ _) h
      | none =>
        simp only [List.mem_cons, not_or] at h
        rw [ih cs h.2]

theorem takeWhile_word_append {w b : List Char} (hwall : ∀ c ∈ w, isWordChar c = true)
    (hb : ∀ c, b.head? = some c → isWordChar c = false) :
    (w ++ b).takeWhile isWordChar = w ∧ (w ++ b).dropWhile isWordChar = b := by
  induction w with
  | nil =>
    cases b with
    | nil => exact ⟨rfl, rfl⟩
    | cons c cs =>
      have hc := hb c rfl
      simp [List.takeWhile_cons, List.dropWhile_cons, hc]
  | cons x xs ih =>
    have hx := hwall x (by simp)
    have hih := ih (fun c hc => hwall c (by simp [hc]))
    simp [List.takeWhile_cons, List.dropWhile_cons, hx, hih.1, hih.2]

theorem parseTagBody_at {w b : List Char} (hw : w ≠ [])
    (hwall : ∀ c ∈ w, isWordChar c = true)
    (hbh : ∀ c, b.head? = some c → isWordChar c = false) :
    parseTagBody (srcLit ++ (w ++ b)) = some (srcLit ++ w, b) := by
  have htw := takeWhile_word_append hwall hbh
  have hemp : w.isEmpty = false := by
    cases w
    · exact absurd rfl hw
    · rfl
  simp only [parseTagBody, isPre_self_append, if_true, List.drop_left, htw.1, htw.2, hemp,
    Bool.false_eq_true, if_false]

theorem matchBare_at {w b : List Char} (hw : w ≠ [])
    (hwall : ∀ c ∈ w, isWordChar c = true)
    (hbh : ∀ c, b.head? = some c → isWordChar c = false ∧ c ≠ ']') :
    matchBare (srcLit ++ (w ++ b)) = some (srcLit ++ w, b) := by
  unfold matchBare
  rw [parseTagBody_at hw hwall (fun c hc => (hbh c hc).1)]
  cases b with
  | nil => rfl
  | cons d bs =>
    have hd := (hbh d rfl).2
    simp [hd]

theorem matchStrip_at {w b : List Char} (hw : w ≠ [])
    (hwall : ∀ c ∈ w, isWordChar c = true) :
    matchStrip ('[' :: (srcLit ++ (w ++ (']' :: b)))) = some b := by
  simp only [matchStrip, if_pos rfl]
  rw [parseTagBody_at hw hwall (fun c hc => by
    have hc' : c = ']' := by simpa using hc.symm
    rw [hc']
    decide)]
  simp

theorem nbAux_nil (fuel : Nat) (prev : Option Char) : nbAux fuel prev [] = [] := by
  cases fuel <;> rfl

theorem nbAux_walk {a : List Char} (haS : ∀ c ∈ a, c ≠ 'S') (haB : ∀ c ∈ a, c ≠ '[') :
    ∀ fuel prev rest, prev ≠ some '[' →
      ∃ prev2, prev2 ≠ some '[' ∧
        nbAux (a.length + fuel) prev (a ++ rest) = a ++ nbAux fuel prev2 rest := by
  induction a with
  | nil =>
    intro fuel prev rest hprev
    exact ⟨prev, hprev, by simp⟩
  | cons x xs ih =>
    intro fuel prev rest hprev
    have hx : x ≠ 'S' := haS x (by simp)
    have hxB : x ≠ '[' := haB x (by simp)
    obtain ⟨prev2, hp2, heq⟩ := ih (fun c hc => haS c (by simp [hc]))
      (fun c hc => haB c (by simp [hc])) fuel (some x) rest (by simpa using hxB)
    refine ⟨prev2, hp2, ?_⟩
    have hlen : (x :: xs).length + fuel = (xs.length + fuel) + 1 := by
      simp only [List.length_cons]
      omega
    rw [hlen]
    simp only [List.cons_append, nbAux, List.append_eq]
    rw [show (if prev = some '[' then none else matchBare (x :: (xs ++ rest))) = none by
      split
      · rfl
      · exact matchBare_head_ne hx]
    rw [heq]

theorem stripTagsAux_walk {a : List Char} (haB : ∀ c ∈ a, c ≠ '[') :
    ∀ fuel rest, stripTagsAux (a.length + fuel) (a ++ rest) = a ++ stripTagsAux fuel rest := by
  induction a with
  | nil => intro fuel rest; simp
  | cons x xs ih =>
    intro fuel rest
    have hxB : x ≠ '[' := haB x (by simp)
    have hlen : (x :: xs).length + fuel = (xs.length + fuel) + 1 := by
      simp only [List.length_cons]
      omega
    rw [hlen]
    simp only [List.cons_append, stripTagsAux, matchStrip_head_ne hxB, List.append_eq]
    rw [ih (fun c hc => haB c (by simp [hc])) fuel rest]

theorem stripTagsAux_nil (fuel : Nat) : stripTagsAux fuel [] = [] := by
  cases fuel <;> rfl

theorem getLastD_mem_or {l : List Char} {d : Char} : l.getLastD d = d ∨ l.getLastD d ∈ l := by
  induction l generalizing d with
  | nil => exact Or.inl rfl
  | cons x xs ih =>
    rw [show (x :: xs).getLastD d = xs.getLastD x by cases xs <;> rfl]
    rcases ih (d := x) with h | h
    · exact Or.inr (by rw [h]; exact List.mem_cons_self _ _)
    · exact Or.inr (List.mem_cons_of_mem _ h)

/-- Claim C10 (corrected): a bare, unbracketed `SOURCE_<wordrun>` mention in
ordinary prose — not preceded by `[`, not followed by `]`, with the
surrounding text free of brackets and of further capital-`S` starts — is
wrapped by bare-tag normalization and then stripped by the cleanup when no
matching tag is registered: legitimate prose such as `see SOURCE_CODE here`
loses the identifier entirely.  The claim's universal "every maximal
`SOURCE_\w+` substring is deleted" is false, however: an occurrence directly
followed by `]` (or preceded by `[`) escapes normalization and survives (see
the counterexample). -/
theorem claim_c10 (a w b : List Char)
    (haS : ∀ c ∈ a, c ≠ 'S') (haB : ∀ c ∈ a, c ≠ '[' ∧ c ≠ ']')
    (hw : w ≠ []) (hwall : ∀ c ∈ w, isWordChar c = true)
    (hbS : ∀ c ∈ b, c ≠ 'S') (hbB : ∀ c ∈ b, c ≠ '[' ∧ c ≠ ']')
    (hbh : ∀ c, b.head? = some c → isWordChar c = false) :
    SourceRegistry.init.substitute (a ++ (srcLit ++ (w ++ b))) = a ++ b := by
  have hwB : ∀ c ∈ w, c ≠ '[' ∧ c ≠ ']' := by
    intro c hc
    have hcw := hwall c hc
    constructor <;> (intro he; rw [he] at hcw; exact absurd hcw (by decide))
  have h0 : a ++ (srcLit ++ (w ++ b)) ≠ [] := by
    intro h
    rcases List.append_eq_nil.mp h with ⟨_, h2⟩
    rcases List.append_eq_nil.mp h2 with ⟨h3, _⟩
    exact absurd h3 (by decide)
  have hnb : '[' ∉ a ++ (srcLit ++ (w ++ b)) := by
    intro hmem
    simp only [List.mem_append] at hmem
    rcases hmem with h | h | h | h
    · exact (haB _ h).1 rfl
    · exact absurd h (by decide)
    · exact (hwB _ h).1 rfl
    · exact (hbB _ h).1 rfl
  have hb' : ∀ c, b.head? = some c → isWordChar c = false ∧ c ≠ ']' := by
    intro c hc
    refine ⟨hbh c hc, ?_⟩
    have hcb : c ∈ b := by
      cases b with
      | nil => simp at hc
      | cons d bs =>
        have hcd : d = c := by simpa using hc
        rw [← hcd]
        exact List.mem_cons_self _ _
    exact (hbB c hcb).2
  have hexp : expand_compound_tags (a ++ (srcLit ++ (w ++ b))) =
      a ++ (srcLit ++ (w ++ b)) :=
    expandCompoundAux_id_nobracket _ hnb
  have h7 : srcLit.length = 7 := rfl
  have hplast : ((srcLit ++ w).getLastD '_') ≠ '[' := by
    intro he
    rcases getLastD_mem_or (l := srcLit ++ w) (d := '_') with h | h
    · rw [he] at h
      exact absurd h (by decide)
    · rw [he] at h
      rcases List.mem_append.mp h with h | h
      · exact absurd h (by decide)
      · exact (hwB _ h).1 rfl
  have hnorm : normalize_bare_tags (a ++ (srcLit ++ (w ++ b))) =
      a ++ ('[' :: ((srcLit ++ w) ++ (']' :: b))) := by
    unfold normalize_bare_tags
    have hlenL : (a ++ (srcLit ++ (w ++ b))).length =
        a.length + (7 + w.length + b.length) := by
      simp only [List.length_append]
      rw [h7]
      omega
    rw [hlenL]
    obtain ⟨prev2, hp2, heq⟩ := nbAux_walk haS (fun c hc => (haB c hc).1)
      (7 + w.length + b.length) none (srcLit ++ (w ++ b)) (by simp)
    rw [heq]
    congr 1
    obtain ⟨prev3, hp3, heq3⟩ := nbAux_walk hbS (fun c hc => (hbB c hc).1)
      (6 + w.length) (some ((srcLit ++ w).getLastD '_')) [] (by simpa using hplast)
    rw [List.append_nil] at heq3
    have hfin : nbAux (6 + w.length + b.length) (some ((srcLit ++ w).getLastD '_')) b = b := by
      have hfuel3 : 6 + w.length + b.length = b.length + (6 + w.length) := by omega
      rw [hfuel3, heq3, nbAux_nil, List.append_nil]
    have hfl : 7 + w.length + b.length = (6 + w.length + b.length) + 1 := by omega
    have hsplit : srcLit ++ (w ++ b) = 'S' :: ("OURCE_".toList ++ (w ++ b)) := rfl
    rw [hfl, hsplit]
    simp only [nbAux]
    have hscrut : (if prev2 = some '[' then none
        else matchBare ('S' :: ("OURCE_".toList ++ (w ++ b)))) = some (srcLit ++ w, b) := by
      rw [if_neg hp2]
      exact matchBare_at hw hwall hb'
    simp only [hscrut]
    rw [hfin]
  have hstrip : stripTags (a ++ ('[' :: ((srcLit ++ w) ++ (']' :: b)))) = a ++ b := by
    unfold stripTags
    have hlen2 : (a ++ ('[' :: ((srcLit ++ w) ++ (']' :: b)))).length =
        a.length + (9 + w.length + b.length) := by
      simp only [List.length_append, List.length_cons]
      rw [h7]
      omega
    rw [hlen2, stripTagsAux_walk (fun c hc => (haB c hc).1)]
    congr 1
    have hfl2 : 9 + w.length + b.length = (8 + w.length + b.length) + 1 := by omega
    rw [hfl2]
    simp only [stripTagsAux]
    have hassoc : (srcLit ++ w) ++ (']' :: b) = srcLit ++ (w ++ (']' :: b)) := by
      rw [List.append_assoc]
    rw [hassoc]
    simp only [matchStrip_at hw hwall]
    have hwalkb := stripTagsAux_walk (a := b) (fun c hc => (hbB c hc).1) (8 + w.length) []
    rw [List.append_nil] at hwalkb
    have hfuelb : 8 + w.length + b.length = b.length + (8 + w.length) := by omega
    rw [hfuelb, hwalkb, stripTagsAux_nil, List.append_nil]
  simp only [SourceRegistry.substitute]
  rw [if_neg h0, hexp, hnorm]
  exact hstrip

/-- Claim C10 counterexample: `SOURCE_1]` contains the maximal unregistered
run `SOURCE_1`, yet `substitute` on a fresh registry returns the text
unchanged — normalization refuses the wrap because the run is followed by a
literal `]` (and the one-character run leaves no room for backtracking), so
the claimed deletion of every unregistered maximal `SOURCE_\w+` substring
does not happen. -/
theorem claim_c10_cex :
    SourceRegistry.init.substitute "SOURCE_1]".toList = "SOURCE_1]".toList ∧
    containsSub srcLit (SourceRegistry.init.substitute "SOURCE_1]".toList) = true := by
  constructor <;> decide

/-- Witness for `claim_c10`: the prose `see SOURCE_CODE here` loses the
identifier. -/
theorem claim_c10_wit :
    SourceRegistry.init.substitute
        ("see ".toList ++ (srcLit ++ ("CODE".toList ++ " here".toList))) =
      "see ".toList ++ " here".toList :=
  claim_c10 "see ".toList "CODE".toList " here".toList (by decide) (by decide) (by decide)
    (by decide) (by decide) (by decide) (by decide)
